import Mathlib

/-!
Shallow embedding of the pyconduit execution engine (the "tree" generation:
`pyconduit/job.py`, `pyconduit/node.py`, `pyconduit/base.py`,
`pyconduit/function.py`, `pyconduit/utils.py`), together with the superseded
registry entry point `ConduitBlock.__init__` from `pyconduit/block.py`.

Python strings are modelled as `List Char`, Python values as the inductive
`PyValue`, raised exceptions as `PyExc`, and fallible code returns
`Except PyExc _`.  Machine-level details that cannot affect the verified
claims (Unicode numerics in `str.isnumeric`, underscores inside Python `int`
literals, `repr` escaping) are noted at the definitions that simplify them.
-/

namespace Pyconduit

/-- `NodeStatus` from `pyconduit/base.py` (the tree-generation enum).
The member names follow the source; `none_` is `NONE` ("not yet run"). -/
inductive NodeStatus where
  | none_
  | done
  | skipped
  | unhandledException
  | blockNotFound
  | invalidType
  | ifConditionFailed
  | invalidArgument
  | killedManually
deriving DecidableEq, Repr

/-- Python runtime values, as far as the engine manipulates them:
`None`, booleans, integers, strings, lists, and string-keyed dicts (the
engine's dicts — variables, parameters, results — are keyed by strings).
Lists and dicts are stored as cons chains (`listCons`/`listNil`,
`dictCons`/`dictNil`) so the type is a plain (non-nested) inductive; the
smart constructors `PyValue.listV` and `PyValue.dictV` below build them
from Lean lists, and `listElems`/`dictElems` convert back. -/
inductive PyValue where
  | none_
  | boolV (b : Bool)
  | intV (n : Int)
  | strV (s : List Char)
  | listNil
  | listCons (hd tl : PyValue)
  | dictNil
  | dictCons (k : List Char) (v tl : PyValue)
deriving DecidableEq, Repr

/-- A Python list value from a Lean list of values. -/
def PyValue.listV (xs : List PyValue) : PyValue :=
  xs.foldr .listCons .listNil

/-- A Python dict value from a Lean association list. -/
def PyValue.dictV (kvs : List (List Char × PyValue)) : PyValue :=
  kvs.foldr (fun kv acc => .dictCons kv.1 kv.2 acc) .dictNil

/-- The elements of a Python list value. -/
def listElems : PyValue → List PyValue
  | .listCons h t => h :: listElems t
  | _ => []

/-- The entries of a Python dict value. -/
def dictElems : PyValue → List (List Char × PyValue)
  | .dictCons k v t => (k, v) :: dictElems t
  | _ => []

/-- Python exceptions the embedded code can raise or catch.
`validationError` stands for pydantic's `ValidationError`; the
`nodeError s` constructor is `NodeError(status)` from `pyconduit/base.py`.
`recursionError` stands for CPython's stack-depth limit, used when the
fuel of the reference resolver runs out. -/
inductive PyExc where
  | valueError (args : PyValue)
  | validationError
  | nodeError (s : NodeStatus)
  | keyError (k : List Char)
  | attributeError (name : List Char)
  | typeError
  | recursionError
  | other
deriving DecidableEq, Repr

/-- `isinstance(e, ValueError)`.  pydantic's `ValidationError` is declared as
`class ValidationError(Representation, ValueError)`, so it IS a `ValueError`;
`NodeError` derives from `Exception` only. -/
def PyExc.isValueError : PyExc → Bool
  | .valueError _ => true
  | .validationError => true
  | _ => false

/-- `isinstance(e, ValidationError)` (pydantic installed). -/
def PyExc.isValidationError : PyExc → Bool
  | .validationError => true
  | _ => false

/-- `isinstance(e, NodeError)`. -/
def PyExc.isNodeError : PyExc → Bool
  | .nodeError _ => true
  | _ => false

/-- The `.status` attribute of a `NodeError` (meaningless otherwise). -/
def PyExc.nodeStatusOf : PyExc → NodeStatus
  | .nodeError s => s
  | _ => .unhandledException

/-- A value recorded in `Job._data_results`: either an ordinary value or a
stored exception object (`job.py` stores the caught exception itself). -/
inductive RunVal where
  | val (v : PyValue)
  | excVal (e : PyExc)
deriving DecidableEq, Repr

/-! ### Python character and string primitives -/

/-- The left curly brace character (written by code point to keep brace
characters out of string literals). -/
def lbrace : Char := Char.ofNat 123

/-- The right curly brace character. -/
def rbrace : Char := Char.ofNat 125

/-- The single-quote character used by Python `repr` of strings. -/
def squote : Char := Char.ofNat 39

/-- Python's `\s` / `str.strip()` whitespace for the ASCII range:
space, tab, newline, carriage return, vertical tab, form feed. -/
def pyIsSpace (c : Char) : Bool :=
  c == ' ' || c == '\t' || c == '\n' || c == '\r' ||
  c == Char.ofNat 11 || c == Char.ofNat 12

/-- Python `str.strip()`: drop whitespace from both ends. -/
def pyStrip (l : List Char) : List Char :=
  ((l.dropWhile pyIsSpace).reverse.dropWhile pyIsSpace).reverse

/-- Python `str.split(sep)` for a single-character separator
(`"".split(sep) == [""]`, hence the `[[]]` base case). -/
def splitOnChar (sep : Char) : List Char → List (List Char)
  | [] => [[]]
  | c :: rest =>
    let r := splitOnChar sep rest
    if c = sep then [] :: r
    else
      match r with
      | [] => [[c]]
      | h :: t => (c :: h) :: t

/-- Python `str.replace(pat, rep)`: replace every occurrence of `pat`,
scanning left to right without overlap.  (Python's behaviour for an empty
pattern — inserting `rep` between all characters — is not needed here;
all patterns handed to `replace` by the engine are reference tokens of
length at least 7, so the empty pattern is mapped to the identity.) -/
def replaceAllF : Nat → List Char → List Char → List Char → List Char
  | 0, l, _, _ => l
  | _ + 1, [], _, _ => []
  | fuel + 1, c :: rest, pat, rep =>
    if pat ≠ [] ∧ pat.isPrefixOf (c :: rest) then
      rep ++ replaceAllF fuel ((c :: rest).drop pat.length) pat rep
    else
      c :: replaceAllF fuel rest pat rep

/-- `str.replace` proper: the fuel `l.length` always suffices, since every
step consumes at least one character. -/
def replaceAll (l pat rep : List Char) : List Char :=
  replaceAllF l.length l pat rep

/-- The fuel of `replaceAllF` is irrelevant above the input length. -/
theorem replaceAllF_congr :
    ∀ (f₁ f₂ : Nat) (l pat rep : List Char), l.length ≤ f₁ → l.length ≤ f₂ →
      replaceAllF f₁ l pat rep = replaceAllF f₂ l pat rep := by
  intro f₁
  induction f₁ with
  | zero =>
    intro f₂ l pat rep h1 _
    have hl : l = [] := List.eq_nil_of_length_eq_zero (Nat.le_zero.mp h1)
    subst hl
    cases f₂ <;> rfl
  | succ f ih =>
    intro f₂ l pat rep h1 h2
    match l, f₂ with
    | [], 0 => rfl
    | [], g + 1 => rfl
    | c :: rest, g + 1 =>
      simp only [replaceAllF]
      split
      · next hcond =>
        have hp : 1 ≤ pat.length := by
          cases hq : pat with
          | nil => exact absurd hq hcond.1
          | cons a as => simp [hq]
        rw [ih g ((c :: rest).drop pat.length) pat rep]
        · simp only [List.length_drop, List.length_cons] at *
          omega
        · simp only [List.length_drop, List.length_cons] at *
          omega
      · rw [ih g rest pat rep]
        · simp only [List.length_cons] at h1
          omega
        · simp only [List.length_cons] at h2
          omega

/-- Unfolding: `replaceAll` on the empty string. -/
theorem replaceAll_nil (pat rep : List Char) : replaceAll [] pat rep = [] := rfl

/-- Unfolding: one step of `replaceAll`, matching the source's scan. -/
theorem replaceAll_cons (c : Char) (rest pat rep : List Char) :
    replaceAll (c :: rest) pat rep =
      if pat ≠ [] ∧ pat.isPrefixOf (c :: rest) then
        rep ++ replaceAll ((c :: rest).drop pat.length) pat rep
      else
        c :: replaceAll rest pat rep := by
  show replaceAllF (c :: rest).length (c :: rest) pat rep = _
  simp only [List.length_cons, replaceAllF]
  split
  · next hcond =>
    have hp : 1 ≤ pat.length := by
      cases hq : pat with
      | nil => exact absurd hq hcond.1
      | cons a as => simp [hq]
    rw [replaceAllF_congr rest.length ((c :: rest).drop pat.length).length]
    · rfl
    · simp only [List.length_drop, List.length_cons]
      omega
    · exact Nat.le_refl _
  · rfl

/-- Python `str.isnumeric()` restricted to ASCII digits (the engine only
feeds it dotted-path segments; Unicode numerals are out of scope). -/
def isNumeric (l : List Char) : Bool :=
  !l.isEmpty && l.all Char.isDigit

/-- Numeric value of an all-digit string (the `int(item)` after an
`isnumeric` guard, hence non-negative). -/
def toNatNum (l : List Char) : Nat :=
  l.foldl (fun n c => n * 10 + (c.toNat - 48)) 0

/-- Python `int(str)` on a stripped segment: optional sign followed by
digits (whitespace and underscore tolerance of CPython's parser is not
exercised by the engine's inputs). `none` models the raised `ValueError`. -/
def pyIntOpt (l : List Char) : Option Int :=
  match l with
  | [] => none
  | c :: ds =>
    if c = '-' then (if isNumeric ds then some (-(toNatNum ds : Int)) else none)
    else if c = '+' then (if isNumeric ds then some (toNatNum ds : Int) else none)
    else if isNumeric (c :: ds) then some (toNatNum (c :: ds) : Int) else none

/-- Join rendered parts with `", "`, as in Python's list/dict display. -/
def joinComma : List (List Char) → List Char
  | [] => []
  | [x] => x
  | x :: xs => x ++ ", ".data ++ joinComma xs

/-- Rendering modes for `pyStrM`: Python `str`, Python `repr`, and the
two "rest of a container display" helpers. -/
inductive StrMode where
  | strM
  | reprM
  | chainL
  | chainD
deriving DecidableEq, Repr

/-- Python `str`/`repr` as one structural function: `str` of a string is
itself, `repr` wraps it in single quotes, containers render their
elements with `repr` joined by `", "`.  `repr` escaping of quotes inside
strings is not modelled (no verified claim feeds such strings to `str`). -/
def pyStrM : StrMode → PyValue → List Char
  | .chainL, .listCons h t => ", ".data ++ pyStrM .reprM h ++ pyStrM .chainL t
  | .chainL, _ => "]".data
  | .chainD, .dictCons k v t =>
      ", ".data ++ (squote :: (k ++ [squote])) ++ ": ".data ++
        pyStrM .reprM v ++ pyStrM .chainD t
  | .chainD, _ => [rbrace]
  | .reprM, .strV s => squote :: (s ++ [squote])
  | _, .strV s => s
  | _, .none_ => "None".data
  | _, .boolV b => if b then "True".data else "False".data
  | _, .intV n => (toString n).data
  | _, .listNil => "[]".data
  | _, .listCons h t => '[' :: (pyStrM .reprM h ++ pyStrM .chainL t)
  | _, .dictNil => [lbrace, rbrace]
  | _, .dictCons k v t =>
      lbrace :: ((squote :: (k ++ [squote])) ++ ": ".data ++
        pyStrM .reprM v ++ pyStrM .chainD t)

/-- Python `str(v)`. -/
def pyStr (v : PyValue) : List Char := pyStrM .strM v

/-! ### `pyconduit/utils.py`: `parse_slice` and `get_key_path` -/

/-- A Python `slice(start, stop, step)` object. -/
structure SliceSpec where
  start : Option Int
  stop : Option Int
  step : Option Int
deriving DecidableEq, Repr

/-- `parse_slice` from `pyconduit/utils.py`: split the segment on `":"`,
parse each non-empty part as `int` (empty parts become `None`), and build
`slice(*parts)`.  A `ValueError` from `int()` or a `TypeError` from passing
more than three parts is caught and turned into `None`; an empty string
falls through to `None` as well.  A single part `n` is `slice(n)`, i.e.
`slice(None, n, None)`. -/
def parseSlice (v : List Char) : Option SliceSpec :=
  if v = [] then none
  else
    match (splitOnChar ':' v).mapM
        (fun p => if p = [] then some none else (pyIntOpt p).map some) with
    | none => none
    | some [b] => some ⟨none, b, none⟩
    | some [a, b] => some ⟨a, b, none⟩
    | some [a, b, c] => some ⟨a, b, c⟩
    | some _ => none

/-- The index sequence of a slice traversal: starting at `i`, step `st`
(non-zero), while the index is below (above, for negative step) `stop`.
`fuel` bounds the recursion; callers pass `len + 1`, which is always
sufficient after CPython clamping. -/
def sliceGen (fuel : Nat) (i stop st : Int) : List Int :=
  match fuel with
  | 0 => []
  | fuel + 1 =>
    if (0 < st ∧ i < stop) ∨ (st < 0 ∧ stop < i) then
      i :: sliceGen fuel (i + st) stop st
    else []

/-- CPython's `PySlice_AdjustIndices` for a sequence of length `len`:
clamp `start`/`stop` (after adding `len` to negatives) into the valid
traversal range, and generate the visited indices.  A zero step raises
`ValueError`, exactly as `seq[sl]` does in Python. -/
def sliceIndices (len : Nat) (sl : SliceSpec) : Except PyExc (List Int) :=
  let st := sl.step.getD 1
  if st = 0 then
    .error (.valueError (.listV [.strV "slice step cannot be zero".data]))
  else
    let L : Int := (len : Int)
    let adj : Int → Int := fun i =>
      let i := if i < 0 then i + L else i
      if i < 0 then (if st < 0 then -1 else 0)
      else if L ≤ i then (if st < 0 then L - 1 else L)
      else i
    let start := match sl.start with
      | none => if 0 < st then 0 else L - 1
      | some i => adj i
    let stop := match sl.stop with
      | none => if 0 < st then L else -1
      | some i => adj i
    .ok (sliceGen (len + 1) start stop st)

/-- Look up one slice result on a list. Indices produced by `sliceIndices`
are always in range; out-of-range indices (impossible) are dropped. -/
def sliceList (xs : List PyValue) (sl : SliceSpec) : Except PyExc PyValue := do
  let idxs ← sliceIndices xs.length sl
  .ok (.listV (idxs.filterMap (fun i => xs.get? i.toNat)))

/-- Slice of a Python string: a string of the selected characters. -/
def sliceStr (s : List Char) (sl : SliceSpec) : Except PyExc PyValue := do
  let idxs ← sliceIndices s.length sl
  .ok (.strV (idxs.filterMap (fun i => s.get? i.toNat)))

/-- `len(v)` for the list/str cases of `get_key_path` (other types never
reach it there). -/
def pyLen (v : PyValue) : Nat :=
  match v with
  | .strV s => s.length
  | .listNil => 0
  | .listCons _ _ => (listElems v).length
  | _ => 0

/-- `isinstance(v, (list, str))`. -/
def isListOrStr : PyValue → Bool
  | .strV _ => true
  | .listNil => true
  | .listCons _ _ => true
  | _ => false

/-- `isinstance(v, dict)`. -/
def isDict : PyValue → Bool
  | .dictNil => true
  | .dictCons _ _ _ => true
  | _ => false

/-- Python dict lookup by key (first match; engine dicts have unique keys). -/
def assocGet (m : List (List Char × PyValue)) (k : List Char) : Option PyValue :=
  (m.find? (fun kv => kv.1 = k)).map (fun kv => kv.2)

/-- `v[i]` for an in-range non-negative index on a list or string
(`s[i]` on a Python string is a one-character string). -/
def indexGet (cur : PyValue) (n : Nat) : PyValue :=
  match cur with
  | .strV s =>
    match s.get? n with
    | some c => .strV [c]
    | none => .none_
  | _ => ((listElems cur).get? n).getD .none_

/-- One dotted-path segment of `get_key_path` (`pyconduit/utils.py`,
the body of the `for item in key.split(".")` loop):
underscore-guarded segments raise `KeyError`; on lists/strings a numeric
in-range segment indexes, otherwise a parsable slice segment slices;
dicts are looked up by key (raising `KeyError` on a miss); any other
current value ignores the segment and stays unchanged. -/
def keyPathStep (cur : PyValue) (item : List Char) : Except PyExc PyValue :=
  if ("__".data.isPrefixOf item) || (item.reverse.take 2 = "__".data.reverse) ||
     ("_".data.isPrefixOf item) || (item.reverse.take 1 = "_".data) then
    .error (.keyError item)
  else if isListOrStr cur && isNumeric item && decide (toNatNum item < pyLen cur) then
    .ok (indexGet cur (toNatNum item))
  else if isListOrStr cur && (parseSlice item).isSome then
    match cur, parseSlice item with
    | .strV s, some sl => sliceStr s sl
    | cur', some sl => sliceList (listElems cur') sl
    | cur', none => .ok cur'
  else if isDict cur then
    match assocGet (dictElems cur) item with
    | some v => .ok v
    | none => .error (.keyError item)
  else
    .ok cur

/-- `get_key_path(obj, key)` from `pyconduit/utils.py`: fold
`keyPathStep` over the dot-separated segments of `key`. -/
def getKeyPath (obj : PyValue) (key : List Char) : Except PyExc PyValue :=
  (splitOnChar '.' key).foldlM keyPathStep obj

/-! ### The reference-token scanner of `Node._parse_context_string`

`node.py` scans parameter strings with
`re.findall("({[<%#:]{1} [\S]+ [%#:>]{1}})", value)`:
a left brace, one opening-mode character, one space, a non-empty run of
non-whitespace characters, one space, one closing-mode character, and a
right brace.  `findall` returns the non-overlapping matches from left to
right.  Because the `[\S]+` run cannot contain the mandatory space before
the closing character, backtracking never shortens the maximal run, so a
match at a position exists exactly when the characters have the shape
consumed by `tryTok` below. -/

/-- The opening-mode character class `[<%#:]`. -/
def isOpener (c : Char) : Bool :=
  c == '<' || c == '%' || c == '#' || c == ':'

/-- The closing-mode character class `[%#:>]`. -/
def isCloser (c : Char) : Bool :=
  c == '%' || c == '#' || c == ':' || c == '>'

/-- Try to match one reference token at the head of `l`; on success return
the matched token and the remaining input. -/
def tryTok (l : List Char) : Option (List Char × List Char) :=
  match l with
  | c0 :: d :: c2 :: rest =>
    if c0 = lbrace ∧ isOpener d ∧ c2 = ' ' then
      if rest.takeWhile (fun c => !pyIsSpace c) = [] then none
      else
        match rest.dropWhile (fun c => !pyIsSpace c) with
        | c3 :: e :: c5 :: rest'' =>
          if c3 = ' ' ∧ isCloser e ∧ c5 = rbrace then
            some (c0 :: d :: c2 ::
              (rest.takeWhile (fun c => !pyIsSpace c) ++ [c3, e, c5]), rest'')
          else none
        | _ => none
    else none
  | _ => none

/-- The drop part of a `takeWhile`/`dropWhile` split is no longer than the
input. -/
theorem length_dropWhile_le (p : Char → Bool) (l : List Char) :
    (l.dropWhile p).length ≤ l.length := by
  have h2 := congrArg List.length (List.takeWhile_append_dropWhile (p := p) (l := l))
  simp only [List.length_append] at h2
  omega

/-- `tryTok` consumes at least one character, so scanning terminates. -/
theorem tryTok_rest_length {l tok rest : List Char}
    (h : tryTok l = some (tok, rest)) : rest.length < l.length := by
  match l with
  | [] => simp [tryTok] at h
  | [a] => simp [tryTok] at h
  | [a, b] => simp [tryTok] at h
  | c0 :: d :: c2 :: r =>
    have hwl := length_dropWhile_le (fun c => !pyIsSpace c) r
    simp only [tryTok] at h
    split at h
    · split at h
      · simp at h
      · rcases hm : r.dropWhile (fun c => !pyIsSpace c) with _ | ⟨x, _ | ⟨y, _ | ⟨z, r''⟩⟩⟩ <;>
          rw [hm] at h hwl
        all_goals try simp at h
        obtain ⟨-, -, hr2⟩ := h
        subst hr2
        simp only [List.length_cons] at hwl ⊢
        omega
    · simp at h

def findTokensF : Nat → List Char → List (List Char)
  | 0, _ => []
  | fuel + 1, l =>
    match l with
    | [] => []
    | _ :: rest =>
      match tryTok l with
      | some (tok, rest') => tok :: findTokensF fuel rest'
      | none => findTokensF fuel rest

/-- `re.findall` of the token pattern: scan left to right, collecting
non-overlapping matches.  The fuel `l.length + 1` always suffices, since
every scan step consumes at least one character. -/
def findTokens (l : List Char) : List (List Char) :=
  findTokensF (l.length + 1) l

/-- The fuel of `findTokensF` is irrelevant above the input length. -/
theorem findTokensF_congr :
    ∀ (f₁ f₂ : Nat) (l : List Char), l.length < f₁ → l.length < f₂ →
      findTokensF f₁ l = findTokensF f₂ l := by
  intro f₁
  induction f₁ with
  | zero => intro f₂ l h1 _; omega
  | succ f ih =>
    intro f₂ l h1 h2
    match l, f₂ with
    | [], g + 1 => rfl
    | c :: rest, g + 1 =>
      simp only [findTokensF]
      match ht : tryTok (c :: rest) with
      | some (tok, rest') =>
        have hlt := tryTok_rest_length ht
        simp only [List.length_cons] at h1 h2 hlt
        dsimp only
        rw [ih g rest' (by omega) (by omega)]
      | none =>
        simp only [List.length_cons] at h1 h2
        dsimp only
        rw [ih g rest (by omega) (by omega)]

/-- Unfolding: scanning the empty string. -/
theorem findTokens_nil : findTokens [] = [] := rfl

/-- Unfolding: one scan step, matching the source's `findall` behaviour. -/
theorem findTokens_cons (c : Char) (rest : List Char) :
    findTokens (c :: rest) =
      match tryTok (c :: rest) with
      | some (tok, rest') => tok :: findTokens rest'
      | none => findTokens rest := by
  have hstep : findTokensF ((c :: rest).length + 1) (c :: rest) =
      match tryTok (c :: rest) with
      | some (tok, rest') => tok :: findTokensF (rest.length + 1) rest'
      | none => findTokensF (rest.length + 1) rest := rfl
  cases ht : tryTok (c :: rest) with
  | none =>
    show findTokensF ((c :: rest).length + 1) (c :: rest) = findTokens rest
    rw [hstep, ht]
    exact rfl
  | some pr =>
    obtain ⟨tok, rest'⟩ := pr
    have hlt := tryTok_rest_length ht
    simp only [List.length_cons] at hlt
    show findTokensF ((c :: rest).length + 1) (c :: rest) = tok :: findTokens rest'
    rw [hstep, ht]
    show tok :: findTokensF (rest.length + 1) rest' = tok :: findTokensF (rest'.length + 1) rest'
    rw [findTokensF_congr (rest.length + 1) (rest'.length + 1) rest' (by omega) (by omega)]


/-! ### `Node._parse_context_string` / `_parse_context_tag` (`pyconduit/node.py`)

The per-run data visible to the resolver: `{: :}` reads
`job._data_results`, `{# #}` reads `job._data_job["variables"]`,
`{< >}` reads `job._data_job["parameters"]`.  For `{% %}` the code calls
`get_node_path`, which `node.py` imports from `pyconduit/utils.py` but
which is absent from the sources; the `snapshot` field models it from the
spec (see `parseContextTag`).

Recursion depth is tracked with explicit fuel; exhausting it returns
`recursionError`, CPython's stack-limit behaviour (the recursion in the
source is genuinely unbounded: a resolved value whose `str()` contains a
token that resolves to itself recurses forever). -/

structure ResolverCtx where
  results : List (List Char × PyValue)
  jvariables : List (List Char × PyValue)
  jparameters : List (List Char × PyValue)
  snapshot : List (List Char × PyValue)

/-- `"{X "` for an addressing mode `X`. -/
def tagOpen (d : Char) : List Char := [lbrace, d, ' ']

/-- `" X}"` for an addressing mode `X`. -/
def tagClose (e : Char) : List Char := [' ', e, rbrace]

/-- `value.startswith(p)`. -/
def pyStartsWith (p l : List Char) : Bool := p.isPrefixOf l

/-- `value.endswith(p)`. -/
def pyEndsWith (p l : List Char) : Bool := p.reverse.isPrefixOf l.reverse

/-- The argument of one resolver activation: `_parse_context_string`
(`pstr`), `_parse_context_tag` (`ptag`), the tag's inner
resolve-then-look-up step (`pinner`), or the replacement loop over the
found tokens (`ploop`). -/
inductive RArg where
  | pstr (value : List Char)
  | ptag (value : List Char)
  | pinner (root : PyValue) (value : List Char)
  | ploop (items : List (List Char)) (val : PyValue)

/-- The recursive core of `Node._parse_context_string` /
`_parse_context_tag`, structural on an explicit fuel that decreases on
every internal call (an upper bound on Python's recursion depth; running
out models CPython's `RecursionError`, and the recursion in the source is
genuinely unbounded for self-referential values).

* `pstr value`: find the reference tokens; a token-free string is
  returned unchanged; a string that is exactly one token (after
  `strip()`) resolves to the typed value of that token; otherwise every
  token is replaced by the `str()` of its value, re-parsing after each
  replacement (`ploop`).
* `ptag value`: select the root map from the delimiter pair and fall
  through to `pinner`; a string matching none of the four delimiter pairs
  is returned as-is.  The `{% %}` branch is modelled from the spec:
  `get_node_path` is imported by `node.py` but missing from `src`, and
  the spec says a `{% %}` expression resolves a raw key path against the
  whole snapshot context map.
* `pinner root value`: resolve `value[3:-3]` recursively, then
  `get_key_path(root, key)`; `get_key_path` immediately calls
  `key.split(".")`, so a non-string key raises `AttributeError`.
* `ploop items val`: the `for item in contexts` loop:
  `val = self._parse_context_string(val.replace(item, str(tag(item))))`;
  Python evaluates the attribute `val.replace` before the replacement
  text, so a non-string `val` raises `AttributeError` without resolving
  the tag. -/
def resolve : Nat → ResolverCtx → RArg → Except PyExc PyValue
  | 0, _, _ => .error .recursionError
  | fuel + 1, ctx, .pstr value =>
    match findTokens value with
    | [] => .ok (.strV value)
    | c :: cs =>
      if cs = [] ∧ pyStrip value = c then resolve fuel ctx (.ptag c)
      else resolve fuel ctx (.ploop (c :: cs) (.strV value))
  | fuel + 1, ctx, .ptag value =>
    if pyStartsWith (tagOpen ':') value ∧ pyEndsWith (tagClose ':') value ∧
        6 < value.length then
      resolve fuel ctx (.pinner (.dictV ctx.results) value)
    else if pyStartsWith (tagOpen '#') value ∧ pyEndsWith (tagClose '#') value ∧
        6 < value.length then
      resolve fuel ctx (.pinner (.dictV ctx.jvariables) value)
    else if pyStartsWith (tagOpen '<') value ∧ pyEndsWith (tagClose '>') value ∧
        6 < value.length then
      resolve fuel ctx (.pinner (.dictV ctx.jparameters) value)
    else if pyStartsWith (tagOpen '%') value ∧ pyEndsWith (tagClose '%') value ∧
        6 < value.length then
      resolve fuel ctx (.pinner (.dictV ctx.snapshot) value)
    else
      .ok (.strV value)
  | fuel + 1, ctx, .pinner root value => do
    let innerVal ← resolve fuel ctx (.pstr ((value.drop 3).take (value.length - 6)))
    match innerVal with
    | .strV k => getKeyPath root k
    | _ => .error (.attributeError "split".data)
  | _ + 1, _, .ploop [] val => .ok val
  | fuel + 1, ctx, .ploop (item :: rest) val =>
    match val with
    | .strV s => do
      let tv ← resolve fuel ctx (.ptag item)
      let val' ← resolve fuel ctx (.pstr (replaceAll s item (pyStr tv)))
      resolve fuel ctx (.ploop rest val')
    | _ => .error (.attributeError "replace".data)

/-- `Node._parse_context_string`. -/
def parseContextString (ctx : ResolverCtx) (fuel : Nat) (value : List Char) :
    Except PyExc PyValue :=
  resolve fuel ctx (.pstr value)

/-- `Node._parse_context_tag`. -/
def parseContextTag (ctx : ResolverCtx) (fuel : Nat) (value : List Char) :
    Except PyExc PyValue :=
  resolve fuel ctx (.ptag value)


/-! ### `pyconduit/function.py`: the `FunctionStore` registry

Registered callables are opaque handles (`Nat`); `FunctionStore.functions`
is a Python dict from display-name strings to callables, modelled as an
insertion-ordered association list with Python's assignment semantics.
The display-name normalisation chain (`parse_name`/`make_name`/`upper`)
is not modelled: registry claims are stated over the display names
themselves.  (As shipped, `utils.upper` cannot even run: the source file's
`FROM_CHARS` literal decodes to three characters against `TO_CHARS`'s two,
so `str.maketrans` would raise; this is an encoding artifact and no claim
is settled on it.) -/

namespace FunctionStore

/-- Python `d[k] = v` on a dict: replace in place if the key exists,
else append. -/
def dictSet (reg : List (String × Nat)) (k : String) (v : Nat) :
    List (String × Nat) :=
  if reg.any (fun kv => kv.1 = k) then
    reg.map (fun kv => if kv.1 = k then (k, v) else kv)
  else reg ++ [(k, v)]

/-- Python `d.get(k)`. -/
def dictGet (reg : List (String × Nat)) (k : String) : Option Nat :=
  (reg.find? (fun kv => kv.1 = k)).map (fun kv => kv.2)

/-- `FunctionStore.block` (`function.py`): build the descriptor and, unless
the block is private, execute `x.functions[x.display_name] = __func` — a
plain dict assignment with no duplicate check. -/
def block (reg : List (String × Nat)) (displayName : String) (f : Nat)
    (priv : Bool) : List (String × Nat) :=
  if priv then reg else dictSet reg displayName f

/-- `FunctionStore.match_all` (`function.py`):
`[v for k, v in cls.functions.items() if pattern_match(k.display_name, pattern, strict=True)]`.
The dict keys `k` are strings, so evaluating `k.display_name` on the first
item raises `AttributeError`; only an empty registry yields a value. -/
def matchAll (reg : List (String × Nat)) (pattern : String) :
    Except PyExc (List Nat) :=
  match reg with
  | [] => .ok []
  | _ :: _ => .error (.attributeError "display_name".data)

/-- `FunctionStore.match_first`: `next((v for k, v in ... ), None)` over the
same generator, with the same `AttributeError` on a non-empty registry. -/
def matchFirst (reg : List (String × Nat)) (pattern : String) :
    Except PyExc (Option Nat) :=
  match reg with
  | [] => .ok none
  | _ :: _ => .error (.attributeError "display_name".data)

end FunctionStore

/-- `ConduitBlock.__init__` (`pyconduit/block.py`, the superseded flat
generation): raises `ValueError` when the display name is already
registered, before the privacy check; otherwise non-private blocks are
added to `ConduitBlock._blocks`. -/
def conduitBlockRegister (blocks : List (String × Nat)) (displayName : String)
    (b : Nat) (priv : Bool) : Except PyExc (List (String × Nat)) :=
  if blocks.any (fun kv => kv.1 = displayName) then
    .error (.valueError (.listV [.strV "the block already exists".data]))
  else if priv then .ok blocks
  else .ok (blocks ++ [(displayName, b)])

/-! ### `FunctionStore.prefill_arguments` (`pyconduit/function.py`) -/

/-- `inspect.Parameter.kind`. -/
inductive ParamKind where
  | positionalOnly
  | positionalOrKeyword
  | varPositional
  | keywordOnly
  | varKeyword
deriving DecidableEq, Repr

/-- One declared parameter of a registered block. -/
structure Param where
  name : String
  kind : ParamKind
deriving DecidableEq, Repr

/-- An argument auto-filled by `prefill_arguments`: the `Job` instance, the
current `Node` instance, or a value pulled from `Job.global_values`. -/
inductive ArgVal where
  | jobRef
  | nodeRef
  | fromGlobals (v : PyValue)
deriving DecidableEq, Repr

/-- `k.replace("__", "")`: remove every occurrence of a double underscore. -/
def stripDunder (s : String) : String :=
  String.mk (replaceAll s.data "__".data [])

/-- `node.job.global_values.get(name)`: `None` when the name is absent. -/
def globalsGet (g : List (String × PyValue)) (name : String) : PyValue :=
  ((g.find? (fun kv => kv.1 = name)).map (fun kv => kv.2)).getD .none_

/-- `FunctionStore.prefill_arguments`: walk the declared parameters in
order, skip keyword-only and `**kwargs` parameters, strip double
underscores from the name, and fill `"job"` with the Job, `"node"` with
the Node, and anything else from `global_values` by name. -/
def prefillArguments (params : List Param) (g : List (String × PyValue)) :
    List ArgVal :=
  (params.filter (fun p =>
      !(p.kind = ParamKind.keywordOnly ∨ p.kind = ParamKind.varKeyword))).map
    (fun p =>
      let name := stripDunder p.name
      if name = "job" then .jobRef
      else if name = "node" then .nodeRef
      else .fromGlobals (globalsGet g name))

/-! ### `NodeLike.get_node_by_id` (`pyconduit/base.py`)

Only the fields that `get_node_by_id` reads are modelled: the node `id`
and the child list `nodes.items`. -/

inductive PyNode where
  | mk (id : String) (children : List PyNode)

/-- The node's `id`. -/
def PyNode.id : PyNode → String
  | .mk i _ => i

/-- The node's `nodes.items`. -/
def PyNode.children : PyNode → List PyNode
  | .mk _ c => c

/-- `NodeLike.get_node_by_id(id, recursive)` applied to the child list
`self.nodes.items`.  Non-recursive:
`next((x for x in items if x.id and (x.id == id)), None)`.  Recursive:
`next((x.get_node_by_id(id, recursive) for x in items), None)` — the
first element of that generator is the recursive result of the FIRST
child, whether or not it is `None`, and no id is ever compared. -/
def getNodeByIdL : List PyNode → String → Bool → Option PyNode
  | items, i, false => items.find? (fun x => !(x.id == "") && (x.id == i))
  | [], _, true => none
  | x :: _, i, true => getNodeByIdL x.children i true
termination_by items _ _ => sizeOf items
decreasing_by
  rcases x with ⟨xid, xch⟩
  simp [PyNode.children]
  omega

/-! ### `Job` (`pyconduit/job.py`): per-run state, `reset` and `run`

The per-run maps (`_data_steps`, `_data_results`, `_data_status`,
`_data_context`) are modelled as functions from node paths; only the
presence of a `_data_steps` snapshot is tracked (its payload,
`Node.get_contexts()`, plays no role in any claim).  `_data_job` is the
dict written by `_save_job_contexts`.

`Job.run` drives the lazy `NodeLike.walk` generator and processes one
`(node, admission)` pair at a time.  A run is modelled by the sequence of
pairs the generator yields, each bundled with the behaviour the node's
callable would have at that point of the run (`outcome`); quantifying
over all such sequences covers every schedule the interleaved generator
can produce. -/

structure JobState where
  idV : PyValue
  nameV : PyValue
  jvariables : List (List Char × PyValue)
  localValues : List (List Char × PyValue)
  globalValues : List (String × PyValue)
  ctxV : PyValue
  status : Option Bool
  dataSteps : String → Option Unit
  dataResults : String → Option RunVal
  dataStatus : String → Option NodeStatus
  dataJob : List (List Char × PyValue)
  dataContext : String → Option PyValue

/-- `Job.status` as a context value. -/
def statusToPy : Option Bool → PyValue
  | none => .none_
  | some b => .boolV b

/-- `Job.get_contexts()`: the six-entry dict
`{id, name, variables, ctx, status, parameters}`. -/
def getContexts (j : JobState) : List (List Char × PyValue) :=
  [("id".data, j.idV), ("name".data, j.nameV),
   ("variables".data, .dictV j.jvariables), ("ctx".data, j.ctxV),
   ("status".data, statusToPy j.status),
   ("parameters".data, .dictV j.localValues)]

/-- `Job.reset`: set `_status` to `None`, clear `_data_steps`,
`_data_results`, `_data_job` and `_data_status`, then call
`_save_job_contexts`, which updates the just-cleared `_data_job` with a
fresh `get_contexts()` snapshot.  `_data_context` is not touched. -/
def Job.reset (j : JobState) : JobState :=
  let j' := { j with status := none }
  { j' with
    dataSteps := fun _ => none
    dataResults := fun _ => none
    dataStatus := fun _ => none
    dataJob := getContexts j' }

/-- Point update of a path-keyed map (`dict.update({path: v})`). -/
def fupdate {α : Type} (m : String → Option α) (k : String) (v : α) :
    String → Option α :=
  fun x => if x = k then some v else m x

/-- What invoking the node's callable does at this point of the run. -/
inductive ExecOutcome where
  | ret (v : PyValue)
  | raised (e : PyExc)
deriving DecidableEq, Repr

/-- One `(node, admission)` pair yielded by `NodeLike.walk`, as consumed by
the loop in `Job.run`: the node's `path` and `forced` flag, the admission
status the walk computed (`BLOCK_NOT_FOUND`, `IF_CONDITION_FAILED` or
`none`), and the behaviour of `node.get_callable()()` at this point. -/
structure Entry where
  path : String
  forced : Bool
  admission : Option NodeStatus
  outcome : ExecOutcome
deriving DecidableEq, Repr

/-- The `except` chain of `Job.run` (with `debug = False`): handlers are
tried in source order, and a handler fires when the raised exception is an
instance of its class.  pydantic's `ValidationError` subclasses
`ValueError`, so the `except ValueError` clause also catches it; the
`except ValidationError` clause can fire only for exceptions that are
`ValidationError` but not `ValueError` (none, with pydantic installed). -/
def handleExc (e : PyExc) : RunVal × NodeStatus :=
  if e.isValueError then
    (match e with
     | .valueError args =>
       match listElems args with
       | [a] => (.val a, .invalidArgument)
       | _ => (.excVal e, .invalidArgument)
     | _ => (.excVal e, .invalidArgument))
  else if e.isValidationError then
    (.excVal e, .invalidType)
  else if e.isNodeError then
    (.excVal e, e.nodeStatusOf)
  else
    (.excVal e, .unhandledException)

/-- The `try` block of `Job.run` for an executed node: a walk-reported
admission status raises `NodeError(status)`; otherwise the callable runs
and a normal return is recorded as `DONE`.  Exceptions go through the
handler chain. -/
def execResult (e : Entry) : RunVal × NodeStatus :=
  match e.admission with
  | some adm => handleExc (.nodeError adm)
  | none =>
    match e.outcome with
    | .ret v => (.val v, .done)
    | .raised ex => handleExc ex

/-- The body of the `for node, status in self.walk()` loop of `Job.run`,
threading `(job state, failed_step)`:
snapshot the node contexts; if no prior failure or `forced`, run the try
block, save value and status, and re-read `node.status` — when it is
neither `DONE` nor `IF_CONDITION_FAILED`, set `failed_step` to this node
and `_status` to `False`.  Otherwise save a `SKIPPED` result whose value
is `NodeError(node.status)` with the node's current (pre-save) status. -/
def processEntry (acc : JobState × Option Entry) (e : Entry) :
    JobState × Option Entry :=
  let st := acc.1
  let st := { st with dataSteps := fupdate st.dataSteps e.path () }
  if st.status = none ∨ e.forced then
    let rs := execResult e
    let st := { st with
      dataResults := fupdate st.dataResults e.path rs.1
      dataStatus := fupdate st.dataStatus e.path rs.2 }
    let ns := (st.dataStatus e.path).getD NodeStatus.none_
    if ns = NodeStatus.done ∨ ns = NodeStatus.ifConditionFailed then
      (st, acc.2)
    else
      ({ st with status := some false }, some e)
  else
    ({ st with
      dataResults := fupdate st.dataResults e.path
        (.excVal (.nodeError ((st.dataStatus e.path).getD NodeStatus.none_)))
      dataStatus := fupdate st.dataStatus e.path NodeStatus.skipped },
     acc.2)

/-- `Job.run`: reset, process every yielded `(node, admission)` pair in
order, then promote a still-`None` status to `True`.  The returned
`Option Entry` is the `failed_step` local passed to `on_job_finish`. -/
def runJob (j : JobState) (entries : List Entry) : JobState × Option Entry :=
  let r := entries.foldl processEntry (Job.reset j, none)
  (if r.1.status = none then { r.1 with status := some true } else r.1, r.2)


/-! ### Shared concrete fixtures for witnesses and counterexamples -/

/-- The job-variable token `"{# name #}"`. -/
def mkVarTok (name : List Char) : List Char :=
  lbrace :: '#' :: ' ' :: (name ++ [' ', '#', rbrace])

/-- No left brace occurs in the string: such text can neither start a
reference token nor contain one. -/
def noLBrace (l : List Char) : Bool :=
  l.all (fun c => c ≠ lbrace)

/-- One "literal text, then one reference token" piece of a parameter
string: the token is `"{d run e}"` (one space on each side of `run`). -/
structure TokPiece where
  pre : List Char
  dMode : Char
  run : List Char
  eMode : Char

/-- The token text of a piece. -/
def TokPiece.tok (p : TokPiece) : List Char :=
  lbrace :: p.dMode :: ' ' :: (p.run ++ [' ', p.eMode, rbrace])

/-- A parameter string decomposed as alternating literal text and
reference tokens, ending in a literal tail. -/
def interleave : List TokPiece → List Char → List Char
  | [], tail => tail
  | p :: rest, tail => p.pre ++ (p.tok ++ interleave rest tail)

/-- The same string after every token has been replaced by the `str()`
form of its resolved value `v` (keyed by the token text, which is all the
resolver ever looks at). -/
def replacedConcat (v : List Char → PyValue) :
    List TokPiece → List Char → List Char
  | [], tail => tail
  | p :: rest, tail => p.pre ++ (pyStr (v p.tok) ++ replacedConcat v rest tail)

/-- The opening/closing mode characters form one of the four addressing
modes of `_parse_context_tag` (`{: :}`, `{# #}`, `{< >}`, `{% %}`).
Mismatched pairs also match the scanner's regex but fall through every
branch of `_parse_context_tag`, making the replacement loop re-parse the
unchanged string forever. -/
def pairedDelims (d e : Char) : Bool :=
  (d == ':' && e == ':') || (d == '#' && e == '#') ||
  (d == '<' && e == '>') || (d == '%' && e == '%')

/-- The value `_parse_context_tag` computes for a well-formed token whose
run contains no brace: the run text is path-looked-up in the root map
selected by the delimiter pair. -/
def tagOfP (ctx : ResolverCtx) (p : TokPiece) : Except PyExc PyValue :=
  if p.dMode = ':' ∧ p.eMode = ':' then getKeyPath (.dictV ctx.results) p.run
  else if p.dMode = '#' ∧ p.eMode = '#' then
    getKeyPath (.dictV ctx.jvariables) p.run
  else if p.dMode = '<' ∧ p.eMode = '>' then
    getKeyPath (.dictV ctx.jparameters) p.run
  else if p.dMode = '%' ∧ p.eMode = '%' then
    getKeyPath (.dictV ctx.snapshot) p.run
  else .ok (.strV p.tok)

/-- The shape side conditions on one piece: literal text and run are
brace-free, the run is a non-empty whitespace-free word, and the
delimiters form a real addressing mode. -/
def GoodPiece (p : TokPiece) : Prop :=
  noLBrace p.pre = true ∧ noLBrace p.run = true ∧ p.run ≠ [] ∧
  (∀ c ∈ p.run, pyIsSpace c = false) ∧ pairedDelims p.dMode p.eMode = true

/-- A fresh job with no variables and empty per-run state. -/
def jobW : JobState :=
  { idV := .none_, nameV := .none_, jvariables := [], localValues := [],
    globalValues := [], ctxV := .none_, status := none,
    dataSteps := fun _ => none, dataResults := fun _ => none,
    dataStatus := fun _ => none, dataJob := [], dataContext := fun _ => none }

/-- A walk entry for a node whose referenced block does not exist. -/
def entryMissing (p : String) (forced : Bool) : Entry :=
  { path := p, forced := forced, admission := some .blockNotFound,
    outcome := .ret .none_ }

/-- A walk entry for a node that executes and returns a value. -/
def entryOk (p : String) (forced : Bool) (v : PyValue) : Entry :=
  { path := p, forced := forced, admission := none, outcome := .ret v }

/-- A walk entry for a node whose block invocation raises. -/
def entryRaise (p : String) (forced : Bool) (e : PyExc) : Entry :=
  { path := p, forced := forced, admission := none, outcome := .raised e }

/-- The run state after processing the first `i` walk entries (starting
from the `reset` state), together with the `failed_step` local. -/
def prefState (j : JobState) (es : List Entry) (i : Nat) :
    JobState × Option Entry :=
  (es.take i).foldl processEntry (Job.reset j, none)

/-- Whether the `i`-th entry executes (no prior failure, or forced) and
its recorded status is a failing one — exactly the condition under which
the loop body of `Job.run` assigns `failed_step`. -/
def failingAt (j : JobState) (es : List Entry) (i : Nat) : Bool :=
  match es.get? i with
  | some e =>
    ((prefState j es i).1.status == none || e.forced) &&
      !((execResult e).2 == NodeStatus.done ||
        (execResult e).2 == NodeStatus.ifConditionFailed)
  | none => false

/-- Resolver context with one integer job variable `count = 5` (the
spec's own round-trip example). -/
def ctxC4W : ResolverCtx :=
  { results := [], jvariables := [("count".data, .intV 5)],
    jparameters := [], snapshot := [] }

/-- Resolver context with a string variable `a = ""` and an integer
variable `b = 5`. -/
def ctxC4X : ResolverCtx :=
  { results := [],
    jvariables := [("a".data, .strV []), ("b".data, .intV 5)],
    jparameters := [], snapshot := [] }

/-! ### C6 — classification of schema-validation failures -/

/-- Auxiliary fact: the handler chain of `Job.run` classifies a raised
pydantic `ValidationError` through the `except ValueError` clause (it is a
`ValueError` subclass), so the `except ValidationError` clause and its
`INVALID_TYPE` status are unreachable for it. -/
theorem handleExc_validationError :
    handleExc .validationError = (.excVal .validationError, .invalidArgument) := rfl

/-- C6: the claim says a parameter/type schema-validation failure is
recorded as `INVALID_TYPE`, taking precedence over `INVALID_ARGUMENT`.
The code disagrees: running a single node whose block invocation raises
pydantic's `ValidationError` records `INVALID_ARGUMENT`, because the
`except ValueError` clause at `job.py:154` precedes `except
ValidationError` and pydantic's `ValidationError` subclasses `ValueError`.
The status also fails the run.  This contradicts the code's own intent
(`NodeStatus.INVALID_TYPE` is documented as "Pydantic validation errors"
and `job.py` has a dedicated, unreachable `except ValidationError`
clause), so the claim is right and the code is wrong. -/
theorem c6_validation_failure_classified_invalid_argument :
    (runJob jobW [entryRaise "/1" false .validationError]).1.dataStatus "/1" =
      some .invalidArgument ∧
    (runJob jobW [entryRaise "/1" false .validationError]).1.status = some false ∧
    NodeStatus.invalidArgument ≠ NodeStatus.invalidType := by
  refine ⟨rfl, rfl, by decide⟩

/-! ### C7 — `get_node_by_id` with `recursive=True` -/

/-- With `recursive=True`, `get_node_by_id` returns the first element of
`(x.get_node_by_id(id, recursive) for x in items)` whether or not it is
`None`: it never compares any id and only descends first children, so it
returns `None` on every tree. -/
theorem getNodeById_recursive_none :
    ∀ (items : List PyNode) (i : String), getNodeByIdL items i true = none := by
  suffices h : ∀ (n : Nat) (items : List PyNode), sizeOf items ≤ n →
      ∀ (i : String), getNodeByIdL items i true = none by
    intro items i
    exact h (sizeOf items) items (Nat.le_refl _) i
  intro n
  induction n with
  | zero =>
    intro items hle i
    exfalso
    cases items <;> simp at hle <;> omega
  | succ n ih =>
    intro items hle i
    cases items with
    | nil => simp [getNodeByIdL]
    | cons x xs =>
      have hx : getNodeByIdL (x :: xs) i true = getNodeByIdL x.children i true := by
        simp [getNodeByIdL]
      rw [hx]
      apply ih
      rcases x with ⟨xid, xch⟩
      simp only [PyNode.children]
      simp only [List.cons.sizeOf_spec, PyNode.mk.sizeOf_spec] at hle
      omega

/-- C7: the claim says `get_node_by_id(id, recursive=True)` returns the
first depth-first match and `None` only when no node in the subtree has
the id.  The code disagrees: the recursive variant returns `None` on
every input — even when a direct child carries the id and the
non-recursive variant finds it — because
`next((x.get_node_by_id(id, recursive) for x in self.nodes.items), None)`
takes the first child's recursive result without testing any id.  The
claim is right and the code is wrong (the spec and the non-recursive
branch make the intent unambiguous). -/
theorem c7_recursive_lookup_always_none :
    (∀ (items : List PyNode) (i : String), getNodeByIdL items i true = none) ∧
    getNodeByIdL [PyNode.mk "a" []] "a" true = none ∧
    getNodeByIdL [PyNode.mk "a" []] "a" false = some (PyNode.mk "a" []) := by
  refine ⟨getNodeById_recursive_none, getNodeById_recursive_none _ _, ?_⟩
  simp [getNodeByIdL, PyNode.id]

/-! ### C8 — glob matching over the registry -/

/-- C8: the claim says `match_all` returns exactly the registered blocks
whose display name matches the glob pattern and `match_first` the first
such handle.  The code disagrees: both iterate
`cls.functions.items()` and evaluate `k.display_name` where `k` is the
string dict key, so on any non-empty registry the very first item raises
`AttributeError` ("'str' object has no attribute 'display_name'"); only
an empty registry returns a value.  The claim is right and the code is
wrong: `pattern_match` in `utils.py` exists precisely to implement the
documented glob behaviour, and a registry lookup that can never succeed
is plainly a slip (`v.conduit.display_name`, or the key itself, was
intended). -/
theorem c8_match_all_raises_attribute_error :
    FunctionStore.matchAll [("SUM.MATH", 1)] "*" =
      .error (.attributeError "display_name".data) ∧
    FunctionStore.matchFirst [("SUM.MATH", 1)] "*" =
      .error (.attributeError "display_name".data) ∧
    FunctionStore.matchAll [] "*" = .ok [] := ⟨rfl, rfl, rfl⟩


/-! ### C3 — duplicate display-name registration -/

/-- Membership in the registry follows from a successful lookup. -/
theorem any_of_dictGet {reg : List (String × Nat)} {k : String} {v : Nat}
    (h : FunctionStore.dictGet reg k = some v) :
    reg.any (fun kv => kv.1 = k) = true := by
  unfold FunctionStore.dictGet at h
  obtain ⟨kv₀, hfind, -⟩ := Option.map_eq_some'.mp h
  rw [List.any_eq_true]
  have hmem := List.mem_of_find?_eq_some hfind
  have hpred := List.find?_some hfind
  exact ⟨kv₀, hmem, hpred⟩

/-- A Python dict assignment makes the assigned value the one a later
lookup returns. -/
theorem dictGet_dictSet (reg : List (String × Nat)) (k : String) (v : Nat) :
    FunctionStore.dictGet (FunctionStore.dictSet reg k v) k = some v := by
  unfold FunctionStore.dictSet
  split
  · next hany =>
    induction reg with
    | nil => simp at hany
    | cons kv rest ih =>
      by_cases hk : kv.1 = k
      · unfold FunctionStore.dictGet
        simp only [List.map_cons, if_pos hk]
        rw [List.find?_cons_of_pos _ (by simp)]
        rfl
      · simp only [List.map_cons, if_neg hk]
        simp only [List.any_cons] at hany
        have hrest : rest.any (fun kv => kv.1 = k) = true := by
          rcases Bool.or_eq_true_iff.mp hany with h | h
          · exact absurd (of_decide_eq_true h) hk
          · exact h
        unfold FunctionStore.dictGet
        rw [List.find?_cons_of_neg _ (by simpa using hk)]
        exact ih hrest
  · next hany =>
    have h1 : reg.find? (fun kv => decide (kv.1 = k)) = none := by
      rw [List.find?_eq_none]
      intro x hx
      intro hcon
      exact hany (List.any_eq_true.mpr ⟨x, hx, hcon⟩)
    simp [FunctionStore.dictGet, List.find?_append, h1]

/-- The counterexample for C3: registering a second block under an
already-present display name through `FunctionStore.block` does not fail —
it silently replaces the first entry. -/
theorem c3_counterexample_silent_replacement :
    FunctionStore.block (FunctionStore.block [] "SUM.MATH" 1 false)
        "SUM.MATH" 2 false = [("SUM.MATH", 2)] ∧
    FunctionStore.dictGet
        (FunctionStore.block (FunctionStore.block [] "SUM.MATH" 1 false)
          "SUM.MATH" 2 false) "SUM.MATH" = some 2 := ⟨rfl, rfl⟩

/-- C3 (amended): in the current registry (`FunctionStore.block`),
registering a second non-private block under an existing display name does
not fail: the new callable silently replaces the registered one.  Only the
superseded `ConduitBlock.__init__` registry raises `ValueError` on a
duplicate display name. -/
theorem c3_amended_duplicate_registration (reg : List (String × Nat))
    (k : String) (v f : Nat) (priv : Bool)
    (h : FunctionStore.dictGet reg k = some v) :
    FunctionStore.dictGet (FunctionStore.block reg k f false) k = some f ∧
    conduitBlockRegister reg k f priv =
      .error (.valueError (.listV [.strV "the block already exists".data])) := by
  constructor
  · show FunctionStore.dictGet (FunctionStore.dictSet reg k f) k = some f
    exact dictGet_dictSet reg k f
  · unfold conduitBlockRegister
    rw [if_pos (any_of_dictGet h)]

/-- Witness for C3's amended theorem at a concrete registry. -/
theorem c3_amended_duplicate_registration_witness :
    FunctionStore.dictGet
        (FunctionStore.block [("SUM.MATH", 1)] "SUM.MATH" 2 false)
        "SUM.MATH" = some 2 ∧
    conduitBlockRegister [("SUM.MATH", 1)] "SUM.MATH" 2 false =
      .error (.valueError (.listV [.strV "the block already exists".data])) :=
  c3_amended_duplicate_registration [("SUM.MATH", 1)] "SUM.MATH" 1 2 false rfl

/-! ### C9 — auto-filled positional parameters -/

/-- The counterexample for C9: a positional parameter named `__step__`
(stripped name `"step"`) is not filled with the Node instance — it is
pulled from `global_values` (`None` when absent) — while `__node__` is
filled with the Node. -/
theorem c9_counterexample_step_from_globals :
    prefillArguments [⟨"__step__", .positionalOrKeyword⟩] [] =
      [.fromGlobals .none_] ∧
    prefillArguments [⟨"__step__", .positionalOrKeyword⟩] [("step", .intV 9)] =
      [.fromGlobals (.intV 9)] ∧
    prefillArguments [⟨"__node__", .positionalOrKeyword⟩] [] = [.nodeRef] ∧
    [ArgVal.fromGlobals .none_] ≠ [ArgVal.nodeRef] := by
  refine ⟨rfl, rfl, rfl, by decide⟩

/-- C9 (amended): a positional parameter whose name strips to `"step"` is
not special: like any unrecognised name it is filled from `global_values`
by name (`None` when absent); only `"job"` and `"node"` are auto-filled
with the Job and Node instances. -/
theorem c9_amended_step_parameter (params : List Param)
    (g : List (String × PyValue)) (i : Nat) (p : Param)
    (hp : (params.filter (fun q =>
        !(q.kind = ParamKind.keywordOnly ∨ q.kind = ParamKind.varKeyword))).get? i
      = some p)
    (hname : stripDunder p.name = "step") :
    (prefillArguments params g).get? i =
      some (.fromGlobals (globalsGet g "step")) := by
  unfold prefillArguments
  rw [List.get?_map, hp]
  simp [hname]

/-- Witness for C9's amended theorem at a concrete parameter list. -/
theorem c9_amended_step_parameter_witness :
    (prefillArguments [⟨"__step__", .positionalOrKeyword⟩]
        [("step", .intV 9)]).get? 0 =
      some (.fromGlobals (globalsGet [("step", .intV 9)] "step")) :=
  c9_amended_step_parameter [⟨"__step__", .positionalOrKeyword⟩]
    [("step", .intV 9)] 0 ⟨"__step__", .positionalOrKeyword⟩ rfl rfl

/-! ### C10 — what `reset` clears and what survives a run -/

/-- The counterexample for C10: `reset` does not leave `_data_job` empty —
`_save_job_contexts` refills it with a fresh `get_contexts()` snapshot
before `reset` returns. -/
theorem c10_counterexample_data_job_not_empty :
    (Job.reset jobW).dataJob ≠ [] ∧
    (Job.reset jobW).dataJob = getContexts { jobW with status := none } := by
  exact ⟨by simp [Job.reset, getContexts, jobW], rfl⟩

/-- `processEntry` never touches the per-node ctx store `_data_context`. -/
theorem processEntry_dataContext (acc : JobState × Option Entry) (e : Entry) :
    (processEntry acc e).1.dataContext = acc.1.dataContext := by
  unfold processEntry
  dsimp only
  split
  · split <;> rfl
  · rfl

/-- Neither does the whole processing loop. -/
theorem foldl_processEntry_dataContext (es : List Entry)
    (acc : JobState × Option Entry) :
    (es.foldl processEntry acc).1.dataContext = acc.1.dataContext := by
  induction es generalizing acc with
  | nil => rfl
  | cons e rest ih => rw [List.foldl_cons, ih, processEntry_dataContext]

/-- C10 (amended): `reset` (run at the start of every `run()`) empties the
per-run result, status and node-snapshot maps, and clears then immediately
repopulates the job-context map with a fresh job snapshot (status `None`);
the per-node ctx store `_data_context` is untouched by `reset` and by
`run`, so ctx values recorded under node paths persist across successive
`run()` calls on the same Job. -/
theorem c10_amended_reset_frame (j : JobState) (es es' : List Entry) :
    (∀ p, (Job.reset j).dataResults p = none) ∧
    (∀ p, (Job.reset j).dataStatus p = none) ∧
    (∀ p, (Job.reset j).dataSteps p = none) ∧
    (Job.reset j).dataJob = getContexts { j with status := none } ∧
    (Job.reset j).dataContext = j.dataContext ∧
    (runJob j es).1.dataContext = j.dataContext ∧
    (runJob (runJob j es).1 es').1.dataContext = j.dataContext := by
  have hrun : ∀ (j' : JobState) (l : List Entry),
      (runJob j' l).1.dataContext = j'.dataContext := by
    intro j' l
    unfold runJob
    dsimp only
    split
    · exact foldl_processEntry_dataContext l (Job.reset j', none)
    · exact foldl_processEntry_dataContext l (Job.reset j', none)
  refine ⟨fun p => rfl, fun p => rfl, fun p => rfl, rfl, rfl, hrun j es, ?_⟩
  rw [hrun, hrun]


/-! ### Run-model lemmas shared by C1 and C2 -/

/-- Closed-form characterization of one loop step of `Job.run`. -/
theorem processEntry_eq (acc : JobState × Option Entry) (e : Entry) :
    processEntry acc e =
      if acc.1.status = none ∨ e.forced = true then
        (if (execResult e).2 = NodeStatus.done ∨
            (execResult e).2 = NodeStatus.ifConditionFailed then
          ({ acc.1 with
              dataSteps := fupdate acc.1.dataSteps e.path ()
              dataResults := fupdate acc.1.dataResults e.path (execResult e).1
              dataStatus := fupdate acc.1.dataStatus e.path (execResult e).2 },
            acc.2)
        else
          ({ acc.1 with
              dataSteps := fupdate acc.1.dataSteps e.path ()
              dataResults := fupdate acc.1.dataResults e.path (execResult e).1
              dataStatus := fupdate acc.1.dataStatus e.path (execResult e).2
              status := some false }, some e))
      else
        ({ acc.1 with
            dataSteps := fupdate acc.1.dataSteps e.path ()
            dataResults := fupdate acc.1.dataResults e.path
              (.excVal (.nodeError ((acc.1.dataStatus e.path).getD .none_)))
            dataStatus := fupdate acc.1.dataStatus e.path .skipped }, acc.2) := by
  unfold processEntry
  dsimp only
  split
  · have hns : ((fupdate acc.1.dataStatus e.path (execResult e).2) e.path).getD
        NodeStatus.none_ = (execResult e).2 := by
      simp [fupdate]
    rw [hns]
  · rfl


/-- A loop step leaves the status entry of every other path unchanged. -/
theorem processEntry_dataStatus_frame (acc : JobState × Option Entry)
    (e : Entry) (p : String) (hp : p ≠ e.path) :
    (processEntry acc e).1.dataStatus p = acc.1.dataStatus p := by
  rw [processEntry_eq]
  split <;> (try split) <;> simp [fupdate, hp]

/-- A loop step leaves the result entry of every other path unchanged. -/
theorem processEntry_dataResults_frame (acc : JobState × Option Entry)
    (e : Entry) (p : String) (hp : p ≠ e.path) :
    (processEntry acc e).1.dataResults p = acc.1.dataResults p := by
  rw [processEntry_eq]
  split <;> (try split) <;> simp [fupdate, hp]

/-- Once the run has failed, a loop step keeps it failed. -/
theorem processEntry_status_mono (acc : JobState × Option Entry) (e : Entry)
    (h : acc.1.status = some false) :
    (processEntry acc e).1.status = some false := by
  rw [processEntry_eq]
  split <;> (try split) <;> simp [h]

/-- During the loop the status is `None` or `False`, never `True`. -/
theorem processEntry_status_cases (acc : JobState × Option Entry) (e : Entry)
    (h : acc.1.status = none ∨ acc.1.status = some false) :
    (processEntry acc e).1.status = none ∨
      (processEntry acc e).1.status = some false := by
  rw [processEntry_eq]
  split <;> (try split) <;> simp_all

/-- `processEntry_status_mono`, folded. -/
theorem foldl_status_mono (es : List Entry) (acc : JobState × Option Entry)
    (h : acc.1.status = some false) :
    (es.foldl processEntry acc).1.status = some false := by
  induction es generalizing acc with
  | nil => exact h
  | cons e rest ih => exact ih _ (processEntry_status_mono acc e h)

/-- `processEntry_status_cases`, folded. -/
theorem foldl_status_cases (es : List Entry) (acc : JobState × Option Entry)
    (h : acc.1.status = none ∨ acc.1.status = some false) :
    (es.foldl processEntry acc).1.status = none ∨
      (es.foldl processEntry acc).1.status = some false := by
  induction es generalizing acc with
  | nil => exact h
  | cons e rest ih => exact ih _ (processEntry_status_cases acc e h)

/-- Paths not touched by any processed entry keep their status. -/
theorem foldl_dataStatus_frame (es : List Entry) (acc : JobState × Option Entry)
    (p : String) (hp : ∀ e ∈ es, p ≠ e.path) :
    (es.foldl processEntry acc).1.dataStatus p = acc.1.dataStatus p := by
  induction es generalizing acc with
  | nil => rfl
  | cons e rest ih =>
    rw [List.foldl_cons, ih _ (fun e' he' => hp e' (List.mem_cons_of_mem e he')),
      processEntry_dataStatus_frame acc e p (hp e (List.mem_cons_self e rest))]

/-- Paths not touched by any processed entry keep their result. -/
theorem foldl_dataResults_frame (es : List Entry) (acc : JobState × Option Entry)
    (p : String) (hp : ∀ e ∈ es, p ≠ e.path) :
    (es.foldl processEntry acc).1.dataResults p = acc.1.dataResults p := by
  induction es generalizing acc with
  | nil => rfl
  | cons e rest ih =>
    rw [List.foldl_cons, ih _ (fun e' he' => hp e' (List.mem_cons_of_mem e he')),
      processEntry_dataResults_frame acc e p (hp e (List.mem_cons_self e rest))]

/-- Unfolding one step of the prefix state. -/
theorem prefState_succ (j : JobState) (es : List Entry) (i : Nat) (e : Entry)
    (h : es.get? i = some e) :
    prefState j es (i + 1) = processEntry (prefState j es i) e := by
  unfold prefState
  rw [List.take_succ]
  rw [List.get?_eq_getElem?] at h
  rw [h]
  simp [List.foldl_append]

/-- The prefix status is never `True`. -/
theorem prefState_status_cases (j : JobState) (es : List Entry) (i : Nat) :
    (prefState j es i).1.status = none ∨
      (prefState j es i).1.status = some false :=
  foldl_status_cases _ _ (Or.inl rfl)

/-- A failed prefix stays failed. -/
theorem prefState_mono_false (j : JobState) (es : List Entry) {i i' : Nat}
    (h : i ≤ i') (hf : (prefState j es i).1.status = some false) :
    (prefState j es i').1.status = some false := by
  unfold prefState at hf ⊢
  rw [show i' = i + (i' - i) by omega, List.take_add, List.foldl_append]
  exact foldl_status_mono _ _ hf

/-- Distinct indices of a path-nodup entry list carry distinct paths. -/
theorem paths_ne_of_nodup {es : List Entry}
    (hnd : (es.map Entry.path).Nodup) {i jj : Nat} {e e' : Entry}
    (hi : es.get? i = some e) (hj : es.get? jj = some e') (hne : i ≠ jj) :
    e.path ≠ e'.path := by
  intro heq
  have h1 : (es.map Entry.path).get? i = some e.path := by
    rw [List.get?_map, hi]; rfl
  have h2 : (es.map Entry.path).get? jj = some e'.path := by
    rw [List.get?_map, hj]; rfl
  have hlen : i < (es.map Entry.path).length := by
    rw [List.length_map]
    exact List.get?_eq_some.mp hi |>.choose
  exact hne (List.get?_inj hlen hnd (by rw [h1, h2, heq]))

/-- Before its own turn, an entry's path has no recorded status
(paths are unique per run). -/
theorem prefState_dataStatus_clean (j : JobState) (es : List Entry)
    (hnd : (es.map Entry.path).Nodup) (i : Nat) (e : Entry)
    (h : es.get? i = some e) :
    (prefState j es i).1.dataStatus e.path = none := by
  unfold prefState
  rw [foldl_dataStatus_frame]
  · rfl
  · intro e' he'
    obtain ⟨n, hn⟩ := List.mem_iff_get?.mp he'
    have hni : n < i := by
      by_contra hni
      have : (es.take i).get? n = none := by
        rw [List.get?_eq_none]
        simp only [List.length_take]
        omega
      rw [this] at hn
      exact Option.noConfusion hn
    have hes : es.get? n = some e' := by
      rw [← List.get?_take hni]
      exact hn
    exact paths_ne_of_nodup hnd h hes (by omega)

/-- The maps and `failed_step` returned by `run` are those of the full
prefix fold (the final status promotion touches only `_status`). -/
theorem runJob_components (j : JobState) (es : List Entry) :
    (runJob j es).1.dataStatus = (prefState j es es.length).1.dataStatus ∧
    (runJob j es).1.dataResults = (prefState j es es.length).1.dataResults ∧
    (runJob j es).2 = (prefState j es es.length).2 ∧
    ((runJob j es).1.status = some false ↔
      (prefState j es es.length).1.status = some false) := by
  have hpref : prefState j es es.length =
      es.foldl processEntry (Job.reset j, none) := by
    unfold prefState
    rw [List.take_length]
  unfold runJob
  rw [hpref]
  dsimp only
  split
  · next h =>
    refine ⟨rfl, rfl, rfl, ?_⟩
    dsimp only
    constructor
    · intro hcon
      exact absurd hcon (by simp)
    · intro hcon
      rw [h] at hcon
      exact absurd hcon (by simp)
  · exact ⟨rfl, rfl, rfl, Iff.rfl⟩

/-- The run's final status map at the path of entry `i` is whatever the
step for entry `i` wrote (paths are unique per run). -/
theorem runJob_dataStatus_at (j : JobState) (es : List Entry)
    (hnd : (es.map Entry.path).Nodup) (i : Nat) (e : Entry)
    (h : es.get? i = some e) :
    (runJob j es).1.dataStatus e.path =
      (prefState j es (i + 1)).1.dataStatus e.path ∧
    (runJob j es).1.dataResults e.path =
      (prefState j es (i + 1)).1.dataResults e.path := by
  obtain ⟨hs, hr, -, -⟩ := runJob_components j es
  rw [hs, hr]
  have hi : i < es.length := List.get?_eq_some.mp h |>.choose
  have hsplit : es.length = (i + 1) + (es.length - (i + 1)) := by omega
  have hframe : ∀ e' ∈ (es.drop (i + 1)).take (es.length - (i + 1)),
      e.path ≠ e'.path := by
    intro e' he'
    have he'' : e' ∈ es.drop (i + 1) := List.mem_of_mem_take he'
    obtain ⟨n, hn⟩ := List.mem_iff_get?.mp he''
    have hes : es.get? ((i + 1) + n) = some e' := by
      rw [← List.get?_drop]
      exact hn
    exact paths_ne_of_nodup hnd h hes (by omega)
  constructor
  · conv_lhs => rw [show prefState j es es.length = prefState j es ((i+1) + (es.length - (i+1))) by rw [← hsplit]]
    unfold prefState
    rw [List.take_add, List.foldl_append]
    exact foldl_dataStatus_frame _ _ _ hframe
  · conv_lhs => rw [show prefState j es es.length = prefState j es ((i+1) + (es.length - (i+1))) by rw [← hsplit]]
    unfold prefState
    rw [List.take_add, List.foldl_append]
    exact foldl_dataResults_frame _ _ _ hframe


/-! ### C1 — skip-on-prior-failure with forced override -/

/-- What the loop step for entry `i` writes at its own path, when the
entry executes. -/
theorem prefState_write_exec (j : JobState) (es : List Entry) (i : Nat)
    (e : Entry) (h : es.get? i = some e)
    (hx : (prefState j es i).1.status = none ∨ e.forced = true) :
    (prefState j es (i + 1)).1.dataStatus e.path = some (execResult e).2 ∧
    (prefState j es (i + 1)).1.dataResults e.path = some (execResult e).1 := by
  rw [prefState_succ j es i e h, processEntry_eq, if_pos hx]
  split <;> simp [fupdate]

/-- What the loop step for entry `i` writes at its own path, when the
entry is skipped. -/
theorem prefState_write_skip (j : JobState) (es : List Entry) (i : Nat)
    (e : Entry) (h : es.get? i = some e)
    (hx : ¬((prefState j es i).1.status = none ∨ e.forced = true)) :
    (prefState j es (i + 1)).1.dataStatus e.path = some NodeStatus.skipped ∧
    (prefState j es (i + 1)).1.dataResults e.path =
      some (.excVal (.nodeError
        (((prefState j es i).1.dataStatus e.path).getD NodeStatus.none_))) := by
  rw [prefState_succ j es i e h, processEntry_eq, if_neg hx]
  simp [fupdate]

/-- After a non-forced entry ends with a failing status, the prefix is
failed. -/
theorem prefState_failed_after_bad (j : JobState) (es : List Entry)
    (hnd : (es.map Entry.path).Nodup) (k : Nat) (ek : Entry)
    (hk : es.get? k = some ek) (hkf : ek.forced = false)
    (hbad : (runJob j es).1.dataStatus ek.path ≠ some NodeStatus.done ∧
      (runJob j es).1.dataStatus ek.path ≠ some NodeStatus.ifConditionFailed) :
    (prefState j es (k + 1)).1.status = some false := by
  by_cases hx : (prefState j es k).1.status = none ∨ ek.forced = true
  · have hwrite := prefState_write_exec j es k ek hk hx
    have hfin := (runJob_dataStatus_at j es hnd k ek hk).1
    have hbad' : ¬((execResult ek).2 = NodeStatus.done ∨
        (execResult ek).2 = NodeStatus.ifConditionFailed) := by
      rintro (hc | hc)
      · exact hbad.1 (by rw [hfin, hwrite.1, hc])
      · exact hbad.2 (by rw [hfin, hwrite.1, hc])
    rw [prefState_succ j es k ek hk, processEntry_eq, if_pos hx, if_neg hbad']
  · rcases prefState_status_cases j es k with hs | hs
    · exact absurd (Or.inl hs) hx
    · rw [prefState_succ j es k ek hk]
      exact processEntry_status_mono _ _ hs

/-- C1: in every run in which some non-forced node `k` ends with a status
other than `DONE` or `IF_CONDITION_FAILED`, every later non-forced node is
not executed: it receives status `SKIPPED` with the synthetic skip error
`NodeError(NONE)` recorded as its result; and every later forced node is
still executed normally, its recorded result and status being exactly
those of its block invocation (`execResult`).  Node paths are unique per
run, as the data model requires. -/
theorem c1_skip_after_failure_forced_still_runs (j : JobState)
    (es : List Entry) (hnd : (es.map Entry.path).Nodup)
    (k : Nat) (ek : Entry) (hk : es.get? k = some ek)
    (hkf : ek.forced = false)
    (hbad : (runJob j es).1.dataStatus ek.path ≠ some NodeStatus.done ∧
      (runJob j es).1.dataStatus ek.path ≠ some NodeStatus.ifConditionFailed) :
    ∀ (i : Nat) (e : Entry), k < i → es.get? i = some e →
      (e.forced = false →
        (runJob j es).1.dataStatus e.path = some NodeStatus.skipped ∧
        (runJob j es).1.dataResults e.path =
          some (.excVal (.nodeError NodeStatus.none_))) ∧
      (e.forced = true →
        (runJob j es).1.dataStatus e.path = some (execResult e).2 ∧
        (runJob j es).1.dataResults e.path = some (execResult e).1) := by
  intro i e hki hi
  have hfail := prefState_failed_after_bad j es hnd k ek hk hkf hbad
  have hpf : (prefState j es i).1.status = some false :=
    prefState_mono_false j es (by omega) hfail
  have hfin := runJob_dataStatus_at j es hnd i e hi
  constructor
  · intro hef
    have hx : ¬((prefState j es i).1.status = none ∨ e.forced = true) := by
      rw [hpf, hef]
      simp
    have hw := prefState_write_skip j es i e hi hx
    have hclean := prefState_dataStatus_clean j es hnd i e hi
    rw [hclean] at hw
    refine ⟨by rw [hfin.1, hw.1], ?_⟩
    rw [hfin.2, hw.2]
    exact rfl
  · intro hef
    have hw := prefState_write_exec j es i e hi (Or.inr hef)
    exact ⟨by rw [hfin.1, hw.1], by rw [hfin.2, hw.2]⟩

/-- Witness for C1 at a concrete run: node `/1`'s block is missing
(status `BLOCK_NOT_FOUND`), so the non-forced node `/2` is skipped with a
`NodeError(NONE)` result while the forced node `/3` still runs and
records `DONE` with its return value. -/
theorem c1_skip_after_failure_forced_still_runs_witness :
    (runJob jobW [entryMissing "/1" false, entryOk "/2" false (.intV 1),
        entryOk "/3" true (.intV 2)]).1.dataStatus "/2" =
      some NodeStatus.skipped ∧
    (runJob jobW [entryMissing "/1" false, entryOk "/2" false (.intV 1),
        entryOk "/3" true (.intV 2)]).1.dataResults "/2" =
      some (.excVal (.nodeError NodeStatus.none_)) ∧
    (runJob jobW [entryMissing "/1" false, entryOk "/2" false (.intV 1),
        entryOk "/3" true (.intV 2)]).1.dataStatus "/3" =
      some NodeStatus.done ∧
    (runJob jobW [entryMissing "/1" false, entryOk "/2" false (.intV 1),
        entryOk "/3" true (.intV 2)]).1.dataResults "/3" =
      some (.val (.intV 2)) := by
  have h := c1_skip_after_failure_forced_still_runs jobW
    [entryMissing "/1" false, entryOk "/2" false (.intV 1),
      entryOk "/3" true (.intV 2)]
    (by simp +decide [entryMissing, entryOk]) 0 (entryMissing "/1" false) rfl rfl
    ⟨by decide, by decide⟩
  obtain ⟨h2, -⟩ := h 1 (entryOk "/2" false (.intV 1)) (by omega) rfl
  obtain ⟨h2a, h2b⟩ := h2 rfl
  obtain ⟨-, h3⟩ := h 2 (entryOk "/3" true (.intV 2)) (by omega) rfl
  obtain ⟨h3a, h3b⟩ := h3 rfl
  exact ⟨h2a, h2b, h3a, h3b⟩


/-! ### C2 — failure propagation and the node passed to `on_job_finish` -/

/-- The counterexample for C2: with a failing non-forced node `/1`
followed by a failing forced node `/2`, the `failed_step` handed to
`on_job_finish` is `/2` — the last failing node — although `/1` is the
first node whose status lies outside `{DONE, IF_CONDITION_FAILED}`
(`failed_step = node` in `job.py` overwrites on every failure). -/
theorem c2_counterexample_last_failed_step :
    (runJob jobW [entryMissing "/1" false, entryMissing "/2" true]).2 =
      some (entryMissing "/2" true) ∧
    entryMissing "/2" true ≠ entryMissing "/1" false ∧
    (runJob jobW [entryMissing "/1" false,
        entryMissing "/2" true]).1.dataStatus "/1" =
      some NodeStatus.blockNotFound ∧
    NodeStatus.blockNotFound ≠ NodeStatus.done ∧
    NodeStatus.blockNotFound ≠ NodeStatus.ifConditionFailed := by
  refine ⟨rfl, by decide, rfl, by decide, by decide⟩

/-- What the loop step writes at its own path (state-level form). -/
theorem processEntry_write_exec (acc : JobState × Option Entry) (e : Entry)
    (hx : acc.1.status = none ∨ e.forced = true) :
    (processEntry acc e).1.dataStatus e.path = some (execResult e).2 := by
  rw [processEntry_eq, if_pos hx]
  split <;> simp [fupdate]

/-- Starting from a not-yet-failed state, one loop step fails exactly when
the entry's recorded status is a failing one. -/
theorem processEntry_false_iff (acc : JobState × Option Entry) (e : Entry)
    (hacc : acc.1.status = none) :
    ((processEntry acc e).1.status = some false ↔
      ¬((execResult e).2 = NodeStatus.done ∨
        (execResult e).2 = NodeStatus.ifConditionFailed)) := by
  rw [processEntry_eq, if_pos (Or.inl hacc)]
  split
  · next hgood => simp [hacc, hgood]
  · next hbad => simp [hbad]

/-- The run fails exactly when some processed node's final recorded status
lies outside `{DONE, IF_CONDITION_FAILED}` (fold-level form). -/
theorem fold_false_iff_bad (es : List Entry) (acc : JobState × Option Entry)
    (hnd : (es.map Entry.path).Nodup)
    (hclean : ∀ e ∈ es, acc.1.dataStatus e.path = none)
    (hacc : acc.1.status = none) :
    ((es.foldl processEntry acc).1.status = some false ↔
      ∃ e ∈ es, ∃ s, (es.foldl processEntry acc).1.dataStatus e.path = some s ∧
        s ≠ NodeStatus.done ∧ s ≠ NodeStatus.ifConditionFailed) := by
  induction es generalizing acc with
  | nil =>
    rw [List.foldl_nil]
    simp [hacc]
  | cons e rest ih =>
    rw [List.foldl_cons]
    have hndr : (rest.map Entry.path).Nodup := (List.nodup_cons.mp hnd).2
    have hne : ∀ e' ∈ rest, e'.path ≠ e.path := by
      intro e' he' hcon
      exact (List.nodup_cons.mp hnd).1 (hcon ▸ List.mem_map_of_mem Entry.path he')
    have hwrit := processEntry_write_exec acc e (Or.inl hacc)
    have hfinal_e : (rest.foldl processEntry (processEntry acc e)).1.dataStatus e.path
        = some (execResult e).2 := by
      rw [foldl_dataStatus_frame rest _ e.path (fun e' he' => (hne e' he').symm)]
      exact hwrit
    rcases processEntry_status_cases acc e (Or.inl hacc) with hs | hs
    · have hclean' : ∀ e' ∈ rest, (processEntry acc e).1.dataStatus e'.path = none := by
        intro e' he'
        rw [processEntry_dataStatus_frame acc e e'.path (hne e' he')]
        exact hclean e' (List.mem_cons_of_mem e he')
      rw [ih (processEntry acc e) hndr hclean' hs]
      constructor
      · rintro ⟨e', he', s, hss, hs1, hs2⟩
        exact ⟨e', List.mem_cons_of_mem e he', s, hss, hs1, hs2⟩
      · rintro ⟨e', he', s, hss, hs1, hs2⟩
        rcases List.mem_cons.mp he' with rfl | hmem
        · exfalso
          have hgood : (execResult e').2 = NodeStatus.done ∨
              (execResult e').2 = NodeStatus.ifConditionFailed := by
            by_contra hbad
            rw [(processEntry_false_iff acc e' hacc).mpr hbad] at hs
            exact Option.noConfusion hs
          rw [hfinal_e] at hss
          rcases hgood with hg | hg <;> rw [hg] at hss
          · exact hs1 (Option.some.inj hss).symm
          · exact hs2 (Option.some.inj hss).symm
        · exact ⟨e', hmem, s, hss, hs1, hs2⟩
    · have hbad : ¬((execResult e).2 = NodeStatus.done ∨
          (execResult e).2 = NodeStatus.ifConditionFailed) :=
        (processEntry_false_iff acc e hacc).mp hs
      have hfold : (rest.foldl processEntry (processEntry acc e)).1.status = some false :=
        foldl_status_mono rest _ hs
      rw [hfold]
      simp only [true_iff, iff_true]
      · exact ⟨e, List.mem_cons_self e rest, (execResult e).2, hfinal_e,
          fun hc => hbad (Or.inl hc), fun hc => hbad (Or.inr hc)⟩


/-- The `failed_step` local after `i` loop steps is the entry of the last
index so far at which an executed node recorded a failing status. -/
theorem prefState_failed_eq_lastFailing (j : JobState) (es : List Entry) :
    ∀ i, i ≤ es.length →
      (prefState j es i).2 =
        (((List.range i).filter (failingAt j es)).getLast?).bind
          (fun n => es.get? n) := by
  intro i
  induction i with
  | zero => intro _; rfl
  | succ i ih =>
    intro hle
    have hi : i < es.length := by omega
    obtain ⟨e, he⟩ : ∃ e, es.get? i = some e := by
      cases h : es.get? i with
      | none =>
        exfalso
        rw [List.get?_eq_none] at h
        omega
      | some e => exact ⟨e, rfl⟩
    rw [prefState_succ j es i e he, processEntry_eq, List.range_succ,
      List.filter_append]
    cases hfa : failingAt j es i with
    | true =>
      have hfilter : List.filter (failingAt j es) [i] = [i] := by
        simp [hfa]
      rw [hfilter, List.getLast?_concat]
      unfold failingAt at hfa
      rw [he] at hfa
      simp only [Bool.and_eq_true, Bool.or_eq_true, beq_iff_eq,
        Bool.not_eq_true', Bool.or_eq_false_iff, beq_eq_false_iff_ne,
        ne_eq] at hfa
      rw [if_pos (by tauto), if_neg (by tauto)]
      exact he.symm
    | false =>
      have hfilter : List.filter (failingAt j es) [i] = [] := by
        simp [hfa]
      rw [hfilter, List.append_nil, ← ih (by omega)]
      unfold failingAt at hfa
      rw [he] at hfa
      dsimp only at hfa
      by_cases hx : (prefState j es i).1.status = none ∨ e.forced = true
      · rw [if_pos hx]
        have hcond : ((prefState j es i).1.status == none || e.forced) = true := by
          rcases hx with hx | hx
          · simp [hx]
          · simp [hx]
        rw [hcond, Bool.true_and] at hfa
        have hgood : (execResult e).2 = NodeStatus.done ∨
            (execResult e).2 = NodeStatus.ifConditionFailed := by
          have himp : ¬(execResult e).2 = NodeStatus.done →
              (execResult e).2 = NodeStatus.ifConditionFailed := by
            simpa using hfa
          exact or_iff_not_imp_left.mpr himp
        rw [if_pos hgood]
      · rw [if_neg hx]

/-- C2 (amended): a node whose condition evaluates false while the run has
not yet failed (or which is forced) receives status `IF_CONDITION_FAILED`,
which does not fail the run: after `run()` completes, the job's status is
Failed if and only if some node ended with a status outside
`{DONE, IF_CONDITION_FAILED}`.  The node passed to `on_job_finish` is the
LAST node that executed and recorded such a failing status (`None` when no
node failed) — not the first, because `failed_step` is overwritten on
every failure.  Node paths are unique per run, as the data model
requires. -/
theorem c2_amended_failure_semantics (j : JobState) (es : List Entry)
    (hnd : (es.map Entry.path).Nodup) :
    ((runJob j es).1.status = some false ↔
      ∃ e ∈ es, ∃ s, (runJob j es).1.dataStatus e.path = some s ∧
        s ≠ NodeStatus.done ∧ s ≠ NodeStatus.ifConditionFailed) ∧
    ((runJob j es).2 =
      (((List.range es.length).filter (failingAt j es)).getLast?).bind
        (fun n => es.get? n)) ∧
    (∀ i e, es.get? i = some e →
      e.admission = some NodeStatus.ifConditionFailed →
      ((prefState j es i).1.status = none ∨ e.forced = true) →
      (runJob j es).1.dataStatus e.path = some NodeStatus.ifConditionFailed) := by
  obtain ⟨hsm, hrm, hfm, hiff⟩ := runJob_components j es
  have hfold : prefState j es es.length =
      es.foldl processEntry (Job.reset j, none) := by
    unfold prefState
    rw [List.take_length]
  refine ⟨?_, ?_, ?_⟩
  · rw [hiff, hsm, hfold]
    exact fold_false_iff_bad es (Job.reset j, none) hnd (fun e _ => rfl) rfl
  · rw [hfm]
    exact prefState_failed_eq_lastFailing j es es.length (Nat.le_refl _)
  · intro i e hi hadm hx
    have hres2 : (execResult e).2 = NodeStatus.ifConditionFailed := by
      unfold execResult
      rw [hadm]
      rfl
    have hw := prefState_write_exec j es i e hi hx
    have hfin := (runJob_dataStatus_at j es hnd i e hi).1
    rw [hfin, hw.1, hres2]

/-- Witness for C2's amended theorem: a single node whose condition
evaluates false is recorded as `IF_CONDITION_FAILED`, and its run has no
failed step. -/
theorem c2_amended_failure_semantics_witness :
    (runJob jobW [⟨"/1", false, some NodeStatus.ifConditionFailed,
        .ret .none_⟩]).1.dataStatus "/1" = some NodeStatus.ifConditionFailed ∧
    (runJob jobW [⟨"/1", false, some NodeStatus.ifConditionFailed,
        .ret .none_⟩]).2 = none := by
  have h := c2_amended_failure_semantics jobW
    [⟨"/1", false, some NodeStatus.ifConditionFailed, .ret .none_⟩] (by simp)
  refine ⟨h.2.2 0 _ rfl rfl (Or.inl rfl), ?_⟩
  rw [h.2.1]
  rfl

/-! ### C5 — out-of-range numeric path segments -/

/-- Splitting on a separator that does not occur returns the whole
string. -/
theorem splitOnChar_no_sep (sep : Char) (l : List Char)
    (h : ∀ c ∈ l, c ≠ sep) : splitOnChar sep l = [l] := by
  induction l with
  | nil => rfl
  | cons c rest ih =>
    unfold splitOnChar
    rw [ih (fun c' hc' => h c' (List.mem_cons_of_mem c hc'))]
    rw [if_neg (h c (List.mem_cons_self c rest))]

/-- `int` of an all-digit string. -/
theorem pyIntOpt_digits (l : List Char) (h : isNumeric l = true) :
    pyIntOpt l = some (toNatNum l : Int) := by
  cases l with
  | nil => simp [isNumeric] at h
  | cons c ds =>
    have hc : c.isDigit = true := by
      have := (List.all_eq_true.mp ((Bool.and_eq_true _ _).mp h).2)
      exact this c (List.mem_cons_self c ds)
    unfold pyIntOpt
    dsimp only
    rw [if_neg (fun hcon => by rw [hcon] at hc; exact absurd hc (by decide)),
      if_neg (fun hcon => by rw [hcon] at hc; exact absurd hc (by decide)),
      if_pos h]

/-- An all-digit string contains no underscore, colon or dot. -/
theorem digits_no_special (l : List Char) (h : isNumeric l = true)
    (c : Char) (hc : c ∈ l) : c ≠ '_' ∧ c ≠ ':' ∧ c ≠ '.' := by
  have hd : c.isDigit = true :=
    List.all_eq_true.mp ((Bool.and_eq_true _ _).mp h).2 c hc
  refine ⟨?_, ?_, ?_⟩ <;>
    (intro hcon; rw [hcon] at hd; exact absurd hd (by decide))

/-- `parse_slice` on a bare numeral `n` yields `slice(None, n, None)`. -/
theorem parseSlice_digits (item : List Char) (h : isNumeric item = true) :
    parseSlice item = some ⟨none, some (toNatNum item : Int), none⟩ := by
  have hne : item ≠ [] := by
    intro hcon
    rw [hcon] at h
    simp [isNumeric] at h
  have hsplit : splitOnChar ':' item = [item] :=
    splitOnChar_no_sep ':' item (fun c hc => (digits_no_special item h c hc).2.1)
  unfold parseSlice
  rw [if_neg hne, hsplit]
  have hmap : [item].mapM
      (fun p => if p = [] then some none else (pyIntOpt p).map some) =
      some [some (toNatNum item : Int)] := by
    simp [List.mapM, List.mapM.loop, hne, pyIntOpt_digits item h]
  rw [hmap]

/-- One step of the slice traversal. -/
theorem sliceGen_succ (fuel : Nat) (i stop st : Int) :
    sliceGen (fuel + 1) i stop st =
      if (0 < st ∧ i < stop) ∨ (st < 0 ∧ stop < i) then
        i :: sliceGen fuel (i + st) stop st
      else [] := rfl

/-- Ascending slice traversal from position `k` collects exactly the
elements from position `k` on. -/
theorem sliceGen_drop {α : Type} (xs : List α) :
    ∀ (fuel k : Nat), xs.length - k < fuel →
      (sliceGen fuel (k : Int) (xs.length : Int) 1).filterMap
        (fun i => xs.get? i.toNat) = xs.drop k := by
  intro fuel
  induction fuel with
  | zero => intro k h; omega
  | succ fuel ih =>
    intro k h
    by_cases hk : k < xs.length
    · have hcond : (0 < (1 : Int) ∧ (k : Int) < (xs.length : Int)) ∨
          ((1 : Int) < 0 ∧ (xs.length : Int) < (k : Int)) := by
        left
        constructor
        · decide
        · exact_mod_cast hk
      rw [sliceGen_succ, if_pos hcond, List.filterMap_cons]
      have hget : xs.get? ((k : Int)).toNat = some (xs.get ⟨k, hk⟩) := by
        rw [Int.toNat_natCast]
        exact List.get?_eq_get hk
      rw [hget]
      have hcast : ((k : Int) + 1) = ((k + 1 : Nat) : Int) := by push_cast; ring
      rw [hcast, ih (k + 1) (by omega)]
      rw [List.drop_eq_get_cons hk]
    · have hcond : ¬((0 < (1 : Int) ∧ (k : Int) < (xs.length : Int)) ∨
          ((1 : Int) < 0 ∧ (xs.length : Int) < (k : Int))) := by
        rintro (⟨-, hc⟩ | ⟨hc, -⟩)
        · omega
        · exact absurd hc (by decide)
      rw [sliceGen_succ, if_neg hcond, List.drop_eq_nil_of_le (by omega)]
      rfl

/-- The slice `[:n]` with `n` at least the length keeps the whole
sequence. -/
theorem sliceIndices_oversized (len n : Nat) (hge : len ≤ n) :
    sliceIndices len ⟨none, some (n : Int), none⟩ =
      .ok (sliceGen (len + 1) 0 (len : Int) 1) := by
  unfold sliceIndices
  simp only [Option.getD_none]
  rw [if_neg (by decide : ¬(1 : Int) = 0)]
  dsimp only
  rw [if_neg (by omega : ¬((n : Int) < 0))]
  rw [if_pos (by exact_mod_cast hge : ((len : Nat) : Int) ≤ (n : Int))]
  norm_num
  rw [if_neg (by omega : ¬((n : Int) < 0))]


/-- The elements of the list value built from a Lean list. -/
theorem listElems_listV (xs : List PyValue) :
    listElems (PyValue.listV xs) = xs := by
  induction xs with
  | nil => rfl
  | cons x rest ih =>
    show x :: listElems (PyValue.listV rest) = x :: rest
    rw [ih]

/-- The underscore guard of `get_key_path` never fires on digits. -/
theorem underscore_guard_false (item : List Char)
    (hnum : isNumeric item = true) :
    (("__".data.isPrefixOf item) ||
      (item.reverse.take 2 = "__".data.reverse) ||
      ("_".data.isPrefixOf item) ||
      (item.reverse.take 1 = "_".data)) = false := by
  have hmem : '_' ∉ item := fun hc =>
    (digits_no_special item hnum '_' hc).1 rfl
  have hrev : '_' ∉ item.reverse := fun hc => hmem (List.mem_reverse.mp hc)
  simp only [Bool.or_eq_false_iff, decide_eq_false_iff_not]
  refine ⟨⟨⟨?_, ?_⟩, ?_⟩, ?_⟩
  · rw [Bool.eq_false_iff]
    intro hc
    exact hmem ((List.isPrefixOf_iff_prefix.mp hc).subset (by decide))
  · intro hc
    exact hrev (List.mem_of_mem_take (l := item.reverse) (by rw [hc]; decide))
  · rw [Bool.eq_false_iff]
    intro hc
    exact hmem ((List.isPrefixOf_iff_prefix.mp hc).subset (by decide))
  · intro hc
    exact hrev (List.mem_of_mem_take (l := item.reverse) (by rw [hc]; decide))

/-- On a list whose length is at most the numeral, `get_key_path`'s
per-segment step falls through the index branch into the slice branch. -/
theorem keyPathStep_digits_slice_list (xs : List PyValue) (item : List Char)
    (hnum : isNumeric item = true)
    (hge : pyLen (PyValue.listV xs) ≤ toNatNum item) :
    keyPathStep (PyValue.listV xs) item =
      sliceList xs ⟨none, some (toNatNum item : Int), none⟩ := by
  cases xs with
  | nil =>
    have hge' : pyLen PyValue.listNil ≤ toNatNum item := hge
    show keyPathStep PyValue.listNil item = _
    unfold keyPathStep
    rw [underscore_guard_false item hnum]
    rw [if_neg (by simp)]
    rw [if_neg (by simp; exact fun _ _ => hge')]
    rw [if_pos (by simp [parseSlice_digits item hnum, isListOrStr])]
    rw [parseSlice_digits item hnum]
    rfl
  | cons x rest =>
    have hge' : pyLen (PyValue.listCons x (PyValue.listV rest)) ≤
        toNatNum item := hge
    show keyPathStep (PyValue.listCons x (PyValue.listV rest)) item = _
    unfold keyPathStep
    rw [underscore_guard_false item hnum]
    rw [if_neg (by simp)]
    rw [if_neg (by simp; exact fun _ _ => hge')]
    rw [if_pos (by simp [parseSlice_digits item hnum, isListOrStr])]
    rw [parseSlice_digits item hnum]
    show sliceList (listElems (PyValue.listCons x (PyValue.listV rest))) _ = _
    show sliceList (x :: listElems (PyValue.listV rest)) _ = _
    rw [listElems_listV]

/-- The string version of `keyPathStep_digits_slice_list`. -/
theorem keyPathStep_digits_slice_str (s : List Char) (item : List Char)
    (hnum : isNumeric item = true)
    (hge : pyLen (PyValue.strV s) ≤ toNatNum item) :
    keyPathStep (PyValue.strV s) item =
      sliceStr s ⟨none, some (toNatNum item : Int), none⟩ := by
  unfold keyPathStep
  rw [underscore_guard_false item hnum]
  rw [if_neg (by simp)]
  rw [if_neg (by simp; exact fun _ _ => hge)]
  rw [if_pos (by simp [parseSlice_digits item hnum, isListOrStr])]
  rw [parseSlice_digits item hnum]

/-- The whole-sequence slice evaluation shared by the list and string
branches. -/
theorem sliceList_oversized (xs : List PyValue) (n : Nat)
    (hge : xs.length ≤ n) :
    sliceList xs ⟨none, some (n : Int), none⟩ = .ok (.listV xs) := by
  unfold sliceList
  rw [sliceIndices_oversized xs.length n hge]
  show Except.ok (PyValue.listV ((sliceGen (xs.length + 1) 0
      (xs.length : Int) 1).filterMap (fun i => xs.get? i.toNat))) = _
  rw [show (0 : Int) = ((0 : Nat) : Int) by norm_num,
    sliceGen_drop xs (xs.length + 1) 0 (by omega), List.drop_zero]

/-- The string version of `sliceList_oversized`. -/
theorem sliceStr_oversized (s : List Char) (n : Nat) (hge : s.length ≤ n) :
    sliceStr s ⟨none, some (n : Int), none⟩ = .ok (.strV s) := by
  unfold sliceStr
  rw [sliceIndices_oversized s.length n hge]
  show Except.ok (PyValue.strV ((sliceGen (s.length + 1) 0
      (s.length : Int) 1).filterMap (fun i => s.get? i.toNat))) = _
  rw [show (0 : Int) = ((0 : Nat) : Int) by norm_num,
    sliceGen_drop s (s.length + 1) 0 (by omega), List.drop_zero]

/-- A dot-free key makes `get_key_path` a single `keyPathStep`. -/
theorem getKeyPath_single (obj : PyValue) (key : List Char)
    (h : ∀ c ∈ key, c ≠ '.') :
    getKeyPath obj key = keyPathStep obj key := by
  unfold getKeyPath
  rw [splitOnChar_no_sep '.' key h]
  cases hkps : keyPathStep obj key <;> simp [List.foldlM, hkps]

/-- The counterexample for C5: looking up the out-of-range position `5` on
the three-element list `[1, 2, 3]` (or `7` on `"hello"`) does not raise a
lookup failure — `parse_slice("5")` turns the segment into the slice
`[:5]`, which silently yields the whole sequence. -/
theorem c5_counterexample_out_of_range_yields_value :
    getKeyPath (.listV [.intV 1, .intV 2, .intV 3]) "5".data =
      .ok (.listV [.intV 1, .intV 2, .intV 3]) ∧
    getKeyPath (.strV "hello".data) "7".data = .ok (.strV "hello".data) :=
  ⟨rfl, rfl⟩

/-- C5 (amended): a numeric dotted-path segment `n` that is at least the
length of the current list or string value does not raise: the in-range
index branch is skipped, `parse_slice` reinterprets the bare numeral as
`slice(None, n)`, and the lookup silently returns the whole value
(`value[:n]`).  Lookup failures arise only from underscore-guarded
segments and missing dict keys. -/
theorem c5_amended_out_of_range_is_full_slice (xs : List PyValue)
    (s item : List Char) (hnum : isNumeric item = true)
    (hgeL : xs.length ≤ toNatNum item) (hgeS : s.length ≤ toNatNum item) :
    getKeyPath (.listV xs) item = .ok (.listV xs) ∧
    getKeyPath (.strV s) item = .ok (.strV s) := by
  have hdot : ∀ c ∈ item, c ≠ '.' := fun c hc =>
    (digits_no_special item hnum c hc).2.2
  have hlenL : pyLen (PyValue.listV xs) = xs.length := by
    cases xs with
    | nil => rfl
    | cons x rest =>
      show (listElems (PyValue.listV (x :: rest))).length = _
      rw [listElems_listV]
  constructor
  · rw [getKeyPath_single _ item hdot,
      keyPathStep_digits_slice_list xs item hnum (by omega)]
    exact sliceList_oversized xs (toNatNum item) hgeL
  · rw [getKeyPath_single _ item hdot,
      keyPathStep_digits_slice_str s item hnum (by simpa [pyLen] using hgeS)]
    exact sliceStr_oversized s (toNatNum item) hgeS

/-- Witness for C5's amended theorem at concrete inputs. -/
theorem c5_amended_out_of_range_is_full_slice_witness :
    getKeyPath (.listV [.intV 1, .intV 2, .intV 3]) "9".data =
      .ok (.listV [.intV 1, .intV 2, .intV 3]) ∧
    getKeyPath (.strV "hi".data) "9".data = .ok (.strV "hi".data) :=
  c5_amended_out_of_range_is_full_slice [.intV 1, .intV 2, .intV 3]
    "hi".data "9".data (by decide) (by decide) (by decide)
/-! ### C4 — round-trip resolution of reference tokens

Supporting development: how `findTokens`, `replaceAll` and `pyStrip`
behave on strings of the shape `pre ++ tok ++ pre ++ tok ++ ... ++ tail`
in which the literal parts are brace-free and every token is well formed
(`GoodPiece`). -/

/-- `takeWhile nonWS` stops exactly at the space after a whitespace-free
run. -/
theorem takeWhile_nonWS_append (xs z : List Char)
    (h : ∀ c ∈ xs, pyIsSpace c = false) :
    (xs ++ ' ' :: z).takeWhile (fun c => !pyIsSpace c) = xs := by
  induction xs with
  | nil => simp [List.takeWhile_cons, pyIsSpace]
  | cons c rest ih =>
    have hc := h c (List.mem_cons_self c rest)
    simp only [List.cons_append, List.takeWhile_cons, hc]
    simp [ih (fun c' hc' => h c' (List.mem_cons_of_mem c hc'))]

/-- `dropWhile nonWS` keeps exactly the space after a whitespace-free
run and everything behind it. -/
theorem dropWhile_nonWS_append (xs z : List Char)
    (h : ∀ c ∈ xs, pyIsSpace c = false) :
    (xs ++ ' ' :: z).dropWhile (fun c => !pyIsSpace c) = ' ' :: z := by
  induction xs with
  | nil => simp [List.dropWhile_cons, pyIsSpace]
  | cons c rest ih =>
    have hc := h c (List.mem_cons_self c rest)
    simp only [List.cons_append, List.dropWhile_cons, hc]
    simp [ih (fun c' hc' => h c' (List.mem_cons_of_mem c hc'))]

/-- A matched delimiter pair consists of an opener and a closer. -/
theorem pairedDelims_opener_closer (d e : Char)
    (h : pairedDelims d e = true) : isOpener d = true ∧ isCloser e = true := by
  simp only [pairedDelims, Bool.or_eq_true, Bool.and_eq_true, beq_iff_eq] at h
  rcases h with ((⟨rfl, rfl⟩ | ⟨rfl, rfl⟩) | ⟨rfl, rfl⟩) | ⟨rfl, rfl⟩ <;>
    exact ⟨by decide, by decide⟩

/-- No opening-mode character is a left brace. -/
theorem opener_ne_lbrace {d : Char} (h : isOpener d = true) : d ≠ lbrace := by
  simp only [isOpener, Bool.or_eq_true, beq_iff_eq] at h
  rcases h with ((rfl | rfl) | rfl) | rfl <;> decide

/-- No closing-mode character is a left brace. -/
theorem closer_ne_lbrace {e : Char} (h : isCloser e = true) : e ≠ lbrace := by
  simp only [isCloser, Bool.or_eq_true, beq_iff_eq] at h
  rcases h with ((rfl | rfl) | rfl) | rfl <;> decide

/-- Splitting a brace-freedom fact at a cons. -/
theorem noLBrace_cons {c : Char} {s : List Char}
    (h : noLBrace (c :: s) = true) : c ≠ lbrace ∧ noLBrace s = true := by
  simpa [noLBrace, List.all_cons] using h

/-- Brace-freedom distributes over append. -/
theorem noLBrace_append (a b : List Char) :
    noLBrace (a ++ b) = (noLBrace a && noLBrace b) := by
  simp [noLBrace, List.all_append]

/-- A token is never empty. -/
theorem tok_ne_nil (p : TokPiece) : p.tok ≠ [] := by
  intro h
  exact List.cons_ne_nil _ _ h

/-- The scanner cannot match at a character other than a left brace. -/
theorem tryTok_not_lbrace (c : Char) (l : List Char) (hc : c ≠ lbrace) :
    tryTok (c :: l) = none := by
  match l with
  | [] => rfl
  | [a] => rfl
  | a :: b :: r =>
    simp only [tryTok]
    rw [if_neg]
    intro h
    exact hc h.1

/-- The scanner matches a well-formed token at the head of the input and
consumes exactly the token. -/
theorem tryTok_tok (p : TokPiece) (w : List Char) (hp : GoodPiece p) :
    tryTok (p.tok ++ w) = some (p.tok, w) := by
  obtain ⟨hpre, hrLB, hrne, hrnw, hpair⟩ := hp
  obtain ⟨hop, hcl⟩ := pairedDelims_opener_closer _ _ hpair
  have hassoc : (p.run ++ [' ', p.eMode, rbrace]) ++ w =
      p.run ++ ' ' :: p.eMode :: rbrace :: w := by
    rw [List.append_assoc]
    rfl
  have h1 := takeWhile_nonWS_append p.run (p.eMode :: rbrace :: w) hrnw
  have h2 := dropWhile_nonWS_append p.run (p.eMode :: rbrace :: w) hrnw
  show tryTok (lbrace :: p.dMode :: ' ' ::
      ((p.run ++ [' ', p.eMode, rbrace]) ++ w)) = _
  rw [hassoc]
  simp [tryTok, h1, h2, hop, hcl, hrne, TokPiece.tok]


/-- Scanning skips over a brace-free prefix. -/
theorem findTokens_append_noLB (s : List Char) (hs : noLBrace s = true)
    (z : List Char) : findTokens (s ++ z) = findTokens z := by
  induction s with
  | nil => rfl
  | cons c rest ih =>
    obtain ⟨hc, hrest⟩ := noLBrace_cons hs
    rw [List.cons_append, findTokens_cons, tryTok_not_lbrace c _ hc]
    exact ih hrest

/-- A brace-free string contains no tokens. -/
theorem findTokens_noLB (s : List Char) (hs : noLBrace s = true) :
    findTokens s = [] := by
  have h := findTokens_append_noLB s hs []
  rwa [List.append_nil] at h

/-- Scanning a token at the head of the input collects it and goes on
behind it. -/
theorem findTokens_tok (p : TokPiece) (w : List Char) (hp : GoodPiece p) :
    findTokens (p.tok ++ w) = p.tok :: findTokens w := by
  have h1 : p.tok ++ w = lbrace :: p.dMode :: ' ' ::
      ((p.run ++ [' ', p.eMode, rbrace]) ++ w) := rfl
  rw [h1, findTokens_cons, ← h1, tryTok_tok p w hp]

/-- `re.findall` on an interleaving of brace-free literal text and
well-formed tokens returns exactly the token list. -/
theorem findTokens_interleave (pieces : List TokPiece) (tail : List Char)
    (hg : ∀ p ∈ pieces, GoodPiece p) (ht : noLBrace tail = true) :
    findTokens (interleave pieces tail) = pieces.map TokPiece.tok := by
  induction pieces with
  | nil => exact findTokens_noLB tail ht
  | cons p rest ih =>
    have hp := hg p (List.mem_cons_self p rest)
    show findTokens (p.pre ++ (p.tok ++ interleave rest tail)) = _
    rw [findTokens_append_noLB p.pre hp.1 _, findTokens_tok p _ hp,
      ih (fun q hq => hg q (List.mem_cons_of_mem p hq))]
    rfl

/-- `replace` leaves a string alone when the pattern starts with a left
brace the string does not contain. -/
theorem replaceAll_noLB_pat (l pat rep : List Char)
    (hl : noLBrace l = true) (hpat : pat.head? = some lbrace) :
    replaceAll l pat rep = l := by
  induction l with
  | nil => rfl
  | cons c rest ih =>
    obtain ⟨hc, hrest⟩ := noLBrace_cons hl
    cases pat with
    | nil => cases hpat
    | cons p0 pr =>
      have hp0 : p0 = lbrace := by
        simpa using hpat
      subst hp0
      rw [replaceAll_cons, if_neg, ih hrest]
      intro h
      have h2 := h.2
      simp only [List.isPrefixOf, Bool.and_eq_true, beq_iff_eq] at h2
      exact hc h2.1.symm

/-- `replace` passes over a brace-free prefix unchanged. -/
theorem replaceAll_append_noLB (s w pat rep : List Char)
    (hs : noLBrace s = true) (hpat : pat.head? = some lbrace) :
    replaceAll (s ++ w) pat rep = s ++ replaceAll w pat rep := by
  induction s with
  | nil => rfl
  | cons c rest ih =>
    obtain ⟨hc, hrest⟩ := noLBrace_cons hs
    cases pat with
    | nil => cases hpat
    | cons p0 pr =>
      have hp0 : p0 = lbrace := by
        simpa using hpat
      subst hp0
      rw [List.cons_append, replaceAll_cons, if_neg]
      · rw [ih hrest, List.cons_append]
      · intro h
        have h2 := h.2
        simp only [List.isPrefixOf, Bool.and_eq_true, beq_iff_eq] at h2
        exact hc h2.1.symm

/-- `replace` consumes its pattern at the head of the string and inserts
the replacement. -/
theorem replaceAll_head_tok (t w rep : List Char) (ht : t ≠ []) :
    replaceAll (t ++ w) t rep = rep ++ replaceAll w t rep := by
  cases t with
  | nil => exact absurd rfl ht
  | cons c ts =>
    rw [List.cons_append, replaceAll_cons, if_pos]
    · change rep ++ replaceAll (((c :: ts) ++ w).drop (c :: ts).length)
        (c :: ts) rep = _
      rw [List.drop_left]
    · refine ⟨ht, ?_⟩
      exact List.isPrefixOf_iff_prefix.mpr (List.prefix_append (c :: ts) w)

/-- A well-formed token that is a prefix of another well-formed token is
that token: the run of the longer token would have to contain the space
that closes the shorter one. -/
theorem tok_prefix_eq (p q : TokPiece) (hp : GoodPiece p) (hq : GoodPiece q)
    (h : p.tok <+: q.tok) : p.tok = q.tok := by
  obtain ⟨r, hr⟩ := h
  have hr' : p.dMode = q.dMode ∧
      p.run ++ ' ' :: p.eMode :: rbrace :: r = q.run ++ [' ', q.eMode, rbrace] := by
    have h0 := hr
    simp only [TokPiece.tok, List.cons_append, List.append_assoc,
      List.cons.injEq, true_and] at h0
    exact ⟨h0.1, by simpa using h0.2⟩
  have hruns : p.run = q.run := by
    have h1 := congrArg (List.takeWhile (fun c => !pyIsSpace c)) hr'.2
    rwa [takeWhile_nonWS_append p.run _ hp.2.2.2.1,
      show (q.run ++ [' ', q.eMode, rbrace]) =
        q.run ++ ' ' :: q.eMode :: rbrace :: [] from rfl,
      takeWhile_nonWS_append q.run _ hq.2.2.2.1] at h1
  have hlen := congrArg List.length hr'.2
  simp only [List.length_append, List.length_cons, List.length_nil,
    hruns] at hlen
  have hrnil : r = [] := by
    have : r.length = 0 := by omega
    exact List.eq_nil_of_length_eq_zero this
  rw [hrnil, List.append_nil] at hr
  exact hr

/-- A well-formed token that is a string-prefix of another token followed
by arbitrary text equals that token. -/
theorem tok_unique_at_head (p q : TokPiece) (w : List Char)
    (hp : GoodPiece p) (hq : GoodPiece q)
    (hpre : p.tok.isPrefixOf (q.tok ++ w) = true) : p.tok = q.tok := by
  have hpx : p.tok <+: q.tok ++ w := List.isPrefixOf_iff_prefix.mp hpre
  have hqx : q.tok <+: q.tok ++ w := List.prefix_append _ _
  rcases Nat.le_total p.tok.length q.tok.length with hle | hle
  · exact tok_prefix_eq p q hp hq (List.prefix_of_prefix_length_le hpx hqx hle)
  · exact (tok_prefix_eq q p hq hp
      (List.prefix_of_prefix_length_le hqx hpx hle)).symm

/-- The tail of a token behind its left brace is brace-free. -/
theorem noLBrace_tokTail (q : TokPiece) (hq : GoodPiece q) :
    noLBrace (q.dMode :: ' ' :: (q.run ++ [' ', q.eMode, rbrace])) = true := by
  obtain ⟨hop, hcl⟩ := pairedDelims_opener_closer _ _ hq.2.2.2.2
  have hrun := hq.2.1
  simp only [noLBrace, List.all_cons, List.all_append, Bool.and_eq_true,
    decide_eq_true_eq] at hrun ⊢
  refine ⟨opener_ne_lbrace hop, by decide, hrun, by decide,
    closer_ne_lbrace hcl, by decide⟩

/-- `replace` with one token as the pattern passes over a different
well-formed token unchanged. -/
theorem replaceAll_other_tok (p q : TokPiece) (w rep : List Char)
    (hp : GoodPiece p) (hq : GoodPiece q) (hne : p.tok ≠ q.tok) :
    replaceAll (q.tok ++ w) p.tok rep = q.tok ++ replaceAll w p.tok rep := by
  have h1 : q.tok ++ w = lbrace ::
      ((q.dMode :: ' ' :: (q.run ++ [' ', q.eMode, rbrace])) ++ w) := rfl
  have hnp : ¬(p.tok ≠ [] ∧ p.tok.isPrefixOf (lbrace ::
      ((q.dMode :: ' ' :: (q.run ++ [' ', q.eMode, rbrace])) ++ w)) = true) := by
    intro h
    refine hne (tok_unique_at_head p q w hp hq ?_)
    rw [h1]
    exact h.2
  rw [h1, replaceAll_cons, if_neg hnp,
    replaceAll_append_noLB _ w p.tok rep (noLBrace_tokTail q hq) rfl]
  rfl

/-- `replace` with a token pattern absent from an interleaving leaves it
unchanged. -/
theorem replaceAll_interleave_absent (p : TokPiece) (pieces : List TokPiece)
    (tail rep : List Char) (hp : GoodPiece p)
    (hg : ∀ q ∈ pieces, GoodPiece q) (hne : ∀ q ∈ pieces, p.tok ≠ q.tok)
    (htail : noLBrace tail = true) :
    replaceAll (interleave pieces tail) p.tok rep = interleave pieces tail := by
  induction pieces with
  | nil => exact replaceAll_noLB_pat tail p.tok rep htail rfl
  | cons q rest ih =>
    have hq := hg q (List.mem_cons_self q rest)
    show replaceAll (q.pre ++ (q.tok ++ interleave rest tail)) p.tok rep = _
    rw [replaceAll_append_noLB q.pre _ p.tok rep hq.1 rfl,
      replaceAll_other_tok p q _ rep hp hq (hne q (List.mem_cons_self q rest)),
      ih (fun x hx => hg x (List.mem_cons_of_mem q hx))
        (fun x hx => hne x (List.mem_cons_of_mem q hx))]
    rfl

/-- Dropping whitespace from a longer front never shortens the result
below dropping it from the back part alone. -/
theorem dropWhile_ws_length_mono (a b : List Char) :
    (List.dropWhile pyIsSpace b).length ≤
      (List.dropWhile pyIsSpace (a ++ b)).length := by
  induction a with
  | nil => exact Nat.le_refl _
  | cons c a' ih =>
    rw [List.cons_append, List.dropWhile_cons]
    split
    · exact ih
    · simp only [List.length_cons, List.length_append]
      have h := length_dropWhile_le pyIsSpace b
      omega

/-- `dropWhile` stops immediately at a non-whitespace head. -/
theorem dropWhile_ws_head_false {l : List Char} {c : Char}
    (hc : pyIsSpace c = false) :
    List.dropWhile pyIsSpace (c :: l) = c :: l := by
  rw [List.dropWhile_cons, if_neg]
  simp [hc]

/-- A string containing a non-whitespace character does not strip from
the left to nothing. -/
theorem dropWhile_ws_ne_nil {x : List Char} {c : Char} (hm : c ∈ x)
    (hc : pyIsSpace c = false) : List.dropWhile pyIsSpace x ≠ [] := by
  induction x with
  | nil => cases hm
  | cons a x' ih =>
    rw [List.dropWhile_cons]
    split
    · next ha =>
      rcases List.mem_cons.mp hm with h | h
      · rw [← h] at ha
        rw [hc] at ha
        cases ha
      · exact ih h
    · simp

/-- `dropWhile` distributes over append when the front does not vanish. -/
theorem dropWhile_ws_append_stuck {x : List Char} (z : List Char)
    (hx : List.dropWhile pyIsSpace x ≠ []) :
    List.dropWhile pyIsSpace (x ++ z) =
      List.dropWhile pyIsSpace x ++ z := by
  induction x with
  | nil => exact absurd rfl hx
  | cons a x' ih =>
    by_cases ha : pyIsSpace a = true
    · rw [List.cons_append, List.dropWhile_cons, if_pos ha]
      rw [List.dropWhile_cons, if_pos ha] at hx ⊢
      exact ih hx
    · rw [List.cons_append, List.dropWhile_cons,
        if_neg ha, List.dropWhile_cons, if_neg ha, List.cons_append]

/-- Reversing a token puts the right brace first. -/
theorem tok_reverse (p : TokPiece) :
    p.tok.reverse = rbrace :: p.eMode :: ' ' ::
      (p.run.reverse ++ [' ', p.dMode, lbrace]) := by
  simp [TokPiece.tok, List.reverse_append]

/-- `strip` of literal text containing a non-whitespace character,
followed by a token: the result keeps at least that character and all of
the token, so it is strictly longer than the token. -/
theorem pyStrip_long (x t y : List Char)
    (hx : ∃ c ∈ x, pyIsSpace c = false)
    (ht : ∃ c t', t.reverse = c :: t' ∧ pyIsSpace c = false) :
    t.length < (pyStrip (x ++ (t ++ y))).length := by
  obtain ⟨cx, hcx, hcxw⟩ := hx
  obtain ⟨c0, t0, htr, hc0⟩ := ht
  have hxne := dropWhile_ws_ne_nil hcx hcxw
  have h1 : List.dropWhile pyIsSpace (x ++ (t ++ y)) =
      List.dropWhile pyIsSpace x ++ (t ++ y) :=
    dropWhile_ws_append_stuck _ hxne
  unfold pyStrip
  rw [h1]
  simp only [List.length_reverse]
  rw [List.reverse_append, List.reverse_append, List.append_assoc]
  have h2 := dropWhile_ws_length_mono y.reverse
    (t.reverse ++ (List.dropWhile pyIsSpace x).reverse)
  have h3 : List.dropWhile pyIsSpace
      (t.reverse ++ (List.dropWhile pyIsSpace x).reverse) =
      t.reverse ++ (List.dropWhile pyIsSpace x).reverse := by
    rw [htr, List.cons_append]
    exact dropWhile_ws_head_false hc0
  rw [h3] at h2
  have h4 : 1 ≤ (List.dropWhile pyIsSpace x).length := by
    cases hq : List.dropWhile pyIsSpace x with
    | nil => exact absurd hq hxne
    | cons a l => simp
  simp only [List.length_append, List.length_reverse] at h2 ⊢
  omega

/-- `strip` of such a string is never the bare token. -/
theorem pyStrip_ne_tok (x t y : List Char)
    (hx : ∃ c ∈ x, pyIsSpace c = false)
    (ht : ∃ c t', t.reverse = c :: t' ∧ pyIsSpace c = false) :
    pyStrip (x ++ (t ++ y)) ≠ t := by
  intro h
  have hl := pyStrip_long x t y hx ht
  rw [h] at hl
  omega

/-- `value.startswith("{X ")` on a token tests the opening mode. -/
theorem tok_startsWith (p : TokPiece) (x : Char) :
    pyStartsWith (tagOpen x) p.tok = (x == p.dMode) := by
  show ([lbrace, x, ' '].isPrefixOf (lbrace :: p.dMode :: ' ' ::
    (p.run ++ [' ', p.eMode, rbrace]))) = (x == p.dMode)
  simp [List.isPrefixOf]

/-- `value.endswith(" X}")` on a token tests the closing mode. -/
theorem tok_endsWith (p : TokPiece) (x : Char) :
    pyEndsWith (tagClose x) p.tok = (x == p.eMode) := by
  show ((tagClose x).reverse.isPrefixOf p.tok.reverse) = (x == p.eMode)
  rw [tok_reverse]
  show ([rbrace, x, ' '].isPrefixOf (rbrace :: p.eMode :: ' ' ::
    (p.run.reverse ++ [' ', p.dMode, lbrace]))) = (x == p.eMode)
  simp [List.isPrefixOf]

/-- A token is six characters longer than its run. -/
theorem tok_length (p : TokPiece) : p.tok.length = p.run.length + 6 := by
  simp [TokPiece.tok]

/-- Reducing a bind on an `ok` value. -/
theorem except_bind_ok {α β : Type} (a : α) (f : α → Except PyExc β) :
    ((Except.ok a : Except PyExc α) >>= f) = f a := rfl

/-- One-level unfolding of `resolve` on `_parse_context_string`. -/
theorem resolve_pstr_eq (g : Nat) (ctx : ResolverCtx) (value : List Char) :
    resolve (g + 1) ctx (.pstr value) =
      match findTokens value with
      | [] => .ok (.strV value)
      | c :: cs =>
        if cs = [] ∧ pyStrip value = c then resolve g ctx (.ptag c)
        else resolve g ctx (.ploop (c :: cs) (.strV value)) := rfl

/-- One-level unfolding of `resolve` on `_parse_context_tag`. -/
theorem resolve_ptag_eq (g : Nat) (ctx : ResolverCtx) (value : List Char) :
    resolve (g + 1) ctx (.ptag value) =
      (if pyStartsWith (tagOpen ':') value ∧ pyEndsWith (tagClose ':') value ∧
          6 < value.length then
        resolve g ctx (.pinner (.dictV ctx.results) value)
      else if pyStartsWith (tagOpen '#') value ∧
          pyEndsWith (tagClose '#') value ∧ 6 < value.length then
        resolve g ctx (.pinner (.dictV ctx.jvariables) value)
      else if pyStartsWith (tagOpen '<') value ∧
          pyEndsWith (tagClose '>') value ∧ 6 < value.length then
        resolve g ctx (.pinner (.dictV ctx.jparameters) value)
      else if pyStartsWith (tagOpen '%') value ∧
          pyEndsWith (tagClose '%') value ∧ 6 < value.length then
        resolve g ctx (.pinner (.dictV ctx.snapshot) value)
      else
        .ok (.strV value)) := rfl

/-- One-level unfolding of `resolve` on the tag's inner step. -/
theorem resolve_pinner_eq (g : Nat) (ctx : ResolverCtx) (root : PyValue)
    (value : List Char) :
    resolve (g + 1) ctx (.pinner root value) =
      ((resolve g ctx (.pstr ((value.drop 3).take (value.length - 6)))) >>=
        fun innerVal =>
          match innerVal with
          | .strV k => getKeyPath root k
          | _ => .error (.attributeError "split".data)) := rfl

/-- One-level unfolding of `resolve` on the exhausted replacement loop. -/
theorem resolve_ploop_nil_eq (g : Nat) (ctx : ResolverCtx) (val : PyValue) :
    resolve (g + 1) ctx (.ploop [] val) = .ok val := rfl

/-- One-level unfolding of `resolve` on one replacement-loop step. -/
theorem resolve_ploop_cons_eq (g : Nat) (ctx : ResolverCtx)
    (item : List Char) (rest : List (List Char)) (val : PyValue) :
    resolve (g + 1) ctx (.ploop (item :: rest) val) =
      match val with
      | .strV s =>
        (resolve g ctx (.ptag item)) >>= fun tv =>
          (resolve g ctx (.pstr (replaceAll s item (pyStr tv)))) >>= fun val' =>
            resolve g ctx (.ploop rest val')
      | _ => .error (.attributeError "replace".data) := rfl

/-- The inner step of `_parse_context_tag`: strip the three delimiter
characters from both ends, resolve the brace-free run to itself, and look
the run up in the selected root. -/
theorem resolve_pinner_tok (ctx : ResolverCtx) (root : PyValue) (p : TokPiece)
    (g : Nat) (hrLB : noLBrace p.run = true) :
    resolve (g + 1 + 1) ctx (.pinner root p.tok) = getKeyPath root p.run := by
  have hinner : (p.tok.drop 3).take (p.tok.length - 6) = p.run := by
    show ((p.run ++ [' ', p.eMode, rbrace])).take (p.tok.length - 6) = p.run
    rw [tok_length, Nat.add_sub_cancel, List.take_left]
  rw [resolve_pinner_eq, hinner, resolve_pstr_eq, findTokens_noLB p.run hrLB]
  rw [except_bind_ok]

/-- `_parse_context_tag` on a well-formed token with a matched delimiter
pair: the run is looked up in the root map selected by the pair. -/
theorem resolve_tag (ctx : ResolverCtx) (p : TokPiece) (fuel : Nat)
    (hp : GoodPiece p) (hf : 3 ≤ fuel) :
    resolve fuel ctx (.ptag p.tok) = tagOfP ctx p := by
  obtain ⟨hpre, hrLB, hrne, hrnw, hpair⟩ := hp
  obtain ⟨g, rfl⟩ : ∃ g, fuel = g + 1 + 1 + 1 := ⟨fuel - 3, by omega⟩
  have hlen : 6 < p.tok.length := by
    rw [tok_length]
    have h1 : 1 ≤ p.run.length := by
      cases hq : p.run with
      | nil => exact absurd hq hrne
      | cons a l => simp
    omega
  rw [resolve_ptag_eq]
  simp only [tok_startsWith, tok_endsWith]
  have hpair' := hpair
  simp only [pairedDelims, Bool.or_eq_true, Bool.and_eq_true,
    beq_iff_eq] at hpair'
  rcases hpair' with ((⟨hd, he⟩ | ⟨hd, he⟩) | ⟨hd, he⟩) | ⟨hd, he⟩ <;>
    simp only [tagOfP]
  · rw [if_pos ⟨by simp [hd], by simp [he], hlen⟩, if_pos ⟨hd, he⟩,
      resolve_pinner_tok ctx _ p g hrLB]
  · rw [if_neg (by simp [hd]), if_pos ⟨by simp [hd], by simp [he], hlen⟩,
      if_neg (by simp [hd]), if_pos ⟨hd, he⟩,
      resolve_pinner_tok ctx _ p g hrLB]
  · rw [if_neg (by simp [hd]), if_neg (by simp [hd]),
      if_pos ⟨by simp [hd], by simp [he], hlen⟩,
      if_neg (by simp [hd]), if_neg (by simp [hd]), if_pos ⟨hd, he⟩,
      resolve_pinner_tok ctx _ p g hrLB]
  · rw [if_neg (by simp [hd]), if_neg (by simp [hd]), if_neg (by simp [hd]),
      if_pos ⟨by simp [hd], by simp [he], hlen⟩,
      if_neg (by simp [hd]), if_neg (by simp [hd]), if_neg (by simp [hd]),
      if_pos ⟨hd, he⟩, resolve_pinner_tok ctx _ p g hrLB]

/-- Once the working string is fully replaced and brace-free, the
remaining iterations of the `for item in contexts` loop re-resolve their
tags but leave the string unchanged. -/
theorem resolve_loop_stable (ctx : ResolverCtx) (R : List Char)
    (hR : noLBrace R = true) :
    ∀ (ps : List TokPiece) (fuel : Nat),
      (∀ p ∈ ps, GoodPiece p ∧ ∃ w, tagOfP ctx p = .ok w) →
      ps.length + 3 ≤ fuel →
      resolve fuel ctx (.ploop (ps.map TokPiece.tok) (.strV R)) =
        .ok (.strV R) := by
  intro ps
  induction ps with
  | nil =>
    intro fuel _ hf
    obtain ⟨g, rfl⟩ : ∃ g, fuel = g + 1 := ⟨fuel - 1, by omega⟩
    rw [List.map_nil, resolve_ploop_nil_eq]
  | cons p rest ih =>
    intro fuel hg hf
    obtain ⟨g, rfl⟩ : ∃ g, fuel = g + 1 := ⟨fuel - 1, by omega⟩
    obtain ⟨hp, w, hw⟩ := hg p (List.mem_cons_self p rest)
    rw [List.map_cons, resolve_ploop_cons_eq]
    dsimp only
    rw [resolve_tag ctx p g hp (by
      simp only [List.length_cons] at hf
      omega), hw, except_bind_ok]
    rw [replaceAll_noLB_pat R p.tok (pyStr w) hR rfl]
    have hg1 : resolve g ctx (.pstr R) = .ok (.strV R) := by
      obtain ⟨h, rfl⟩ : ∃ h, g = h + 1 := ⟨g - 1, by
        simp only [List.length_cons] at hf
        omega⟩
      rw [resolve_pstr_eq, findTokens_noLB R hR]
    rw [hg1, except_bind_ok]
    exact ih g (fun q hq => hg q (List.mem_cons_of_mem p hq)) (by
      simp only [List.length_cons] at hf
      omega)

/-- The fully-replaced string is brace-free when the literal parts and
every replacement are. -/
theorem replacedConcat_noLB (v : List Char → PyValue)
    (pieces : List TokPiece) (tail : List Char)
    (hg : ∀ p ∈ pieces, GoodPiece p)
    (hrv : ∀ p ∈ pieces, noLBrace (pyStr (v p.tok)) = true)
    (htail : noLBrace tail = true) :
    noLBrace (replacedConcat v pieces tail) = true := by
  induction pieces with
  | nil => exact htail
  | cons p rest ih =>
    show noLBrace (p.pre ++ (pyStr (v p.tok) ++ replacedConcat v rest tail)) =
      true
    rw [noLBrace_append, noLBrace_append,
      (hg p (List.mem_cons_self p rest)).1,
      hrv p (List.mem_cons_self p rest),
      ih (fun q hq => hg q (List.mem_cons_of_mem p hq))
        (fun q hq => hrv q (List.mem_cons_of_mem p hq))]
    rfl

/-- The mixed case of `_parse_context_string`, from the source's
replacement loop: on a string of brace-free literal text interleaved with
well-formed, pairwise-distinct tokens whose tags resolve to values whose
`str()` forms are brace-free and not all-whitespace, the result is the
string with every token replaced by the `str()` of its value.  The
re-parse inside the loop (`val = self._parse_context_string(val.replace(...))`)
is what the induction follows: each replacement merges the first literal
part, the replacement text and the next literal part into the new first
literal part. -/
theorem resolve_interleave (ctx : ResolverCtx) (v : List Char → PyValue) :
    ∀ (n : Nat) (pieces : List TokPiece) (tail : List Char) (fuel : Nat),
      pieces.length = n →
      (∀ p ∈ pieces, GoodPiece p) →
      noLBrace tail = true →
      (∀ p ∈ pieces, tagOfP ctx p = .ok (v p.tok)) →
      (∀ p ∈ pieces, noLBrace (pyStr (v p.tok)) = true ∧
        ∃ c ∈ pyStr (v p.tok), pyIsSpace c = false) →
      (pieces.map TokPiece.tok).Nodup →
      pieces ≠ [] →
      (∀ p, pieces = [p] → pyStrip (interleave pieces tail) ≠ p.tok) →
      3 * n + 5 ≤ fuel →
      resolve fuel ctx (.pstr (interleave pieces tail)) =
        .ok (.strV (replacedConcat v pieces tail)) := by
  intro n
  induction n with
  | zero =>
    intro pieces tail fuel hlen _ _ _ _ _ hne _ _
    exact absurd (List.eq_nil_of_length_eq_zero hlen) hne
  | succ n ih =>
    intro pieces tail fuel hlen hg htail htag hrv hnd hne hmix hfuel
    obtain ⟨g, rfl⟩ : ∃ g, fuel = g + 1 := ⟨fuel - 1, by omega⟩
    cases pieces with
    | nil => exact absurd rfl hne
    | cons p1 rest =>
      have hp1 : GoodPiece p1 := hg p1 (List.mem_cons_self _ _)
      have hrv1 := hrv p1 (List.mem_cons_self _ _)
      cases rest with
      | nil =>
        rw [resolve_pstr_eq, findTokens_interleave [p1] tail hg htail,
          List.map_cons, List.map_nil]
        dsimp only
        rw [if_neg (fun hcond => hmix p1 rfl hcond.2)]
        obtain ⟨g1, rfl⟩ : ∃ g1, g = g1 + 1 := ⟨g - 1, by omega⟩
        rw [resolve_ploop_cons_eq]
        dsimp only
        rw [resolve_tag ctx p1 g1 hp1 (by omega),
          htag p1 (List.mem_cons_self _ _), except_bind_ok]
        have hIeq : interleave [p1] tail = p1.pre ++ (p1.tok ++ tail) := rfl
        rw [hIeq, replaceAll_append_noLB p1.pre _ p1.tok _ hp1.1 rfl,
          replaceAll_head_tok p1.tok tail _ (tok_ne_nil p1),
          replaceAll_noLB_pat tail p1.tok _ htail rfl]
        have hfin : noLBrace (p1.pre ++ (pyStr (v p1.tok) ++ tail)) = true := by
          rw [noLBrace_append, noLBrace_append, hp1.1, hrv1.1, htail]
          rfl
        obtain ⟨g2, rfl⟩ : ∃ g2, g1 = g2 + 1 := ⟨g1 - 1, by omega⟩
        rw [resolve_pstr_eq, findTokens_noLB _ hfin, except_bind_ok,
          resolve_ploop_nil_eq]
        rfl
      | cons p2 rest2 =>
        have hp2 : GoodPiece p2 := hg p2 (by simp)
        rw [resolve_pstr_eq, findTokens_interleave (p1 :: p2 :: rest2) tail
          hg htail, List.map_cons]
        dsimp only
        rw [if_neg (fun hcond => by
          have h1 := hcond.1
          rw [List.map_cons] at h1
          exact List.cons_ne_nil _ _ h1)]
        obtain ⟨g1, rfl⟩ : ∃ g1, g = g1 + 1 := ⟨g - 1, by omega⟩
        rw [resolve_ploop_cons_eq]
        dsimp only
        rw [resolve_tag ctx p1 g1 hp1 (by omega),
          htag p1 (List.mem_cons_self _ _), except_bind_ok]
        have hnd' := hnd
        rw [List.map_cons, List.map_cons, List.nodup_cons] at hnd'
        have hneTok : ∀ q ∈ p2 :: rest2, p1.tok ≠ q.tok := by
          intro q hq hqe
          apply hnd'.1
          have hmem := List.mem_map_of_mem TokPiece.tok hq
          rw [List.map_cons] at hmem
          rw [hqe]
          exact hmem
        have hIeq : interleave (p1 :: p2 :: rest2) tail =
            p1.pre ++ (p1.tok ++ interleave (p2 :: rest2) tail) := rfl
        rw [hIeq, replaceAll_append_noLB p1.pre _ p1.tok _ hp1.1 rfl,
          replaceAll_head_tok p1.tok _ _ (tok_ne_nil p1),
          replaceAll_interleave_absent p1 (p2 :: rest2) tail _ hp1
            (fun q hq => hg q (List.mem_cons_of_mem p1 hq)) hneTok htail]
        have hMtok : TokPiece.tok ⟨p1.pre ++ (pyStr (v p1.tok) ++ p2.pre),
            p2.dMode, p2.run, p2.eMode⟩ = p2.tok := rfl
        have hI2 : p1.pre ++ (pyStr (v p1.tok) ++ interleave (p2 :: rest2) tail) =
            interleave (⟨p1.pre ++ (pyStr (v p1.tok) ++ p2.pre),
              p2.dMode, p2.run, p2.eMode⟩ :: rest2) tail := by
          show _ = (p1.pre ++ (pyStr (v p1.tok) ++ p2.pre)) ++
            (TokPiece.tok ⟨p1.pre ++ (pyStr (v p1.tok) ++ p2.pre),
              p2.dMode, p2.run, p2.eMode⟩ ++ interleave rest2 tail)
          rw [hMtok]
          show p1.pre ++ (pyStr (v p1.tok) ++
            (p2.pre ++ (p2.tok ++ interleave rest2 tail))) = _
          simp [List.append_assoc]
        rw [hI2]
        have hgood' : ∀ q ∈ (⟨p1.pre ++ (pyStr (v p1.tok) ++ p2.pre),
            p2.dMode, p2.run, p2.eMode⟩ : TokPiece) :: rest2, GoodPiece q := by
          intro q hq
          rcases List.mem_cons.mp hq with rfl | hq'
          · refine ⟨?_, hp2.2.1, hp2.2.2.1, hp2.2.2.2.1, hp2.2.2.2.2⟩
            show noLBrace (p1.pre ++ (pyStr (v p1.tok) ++ p2.pre)) = true
            rw [noLBrace_append, noLBrace_append, hp1.1, hrv1.1, hp2.1]
            rfl
          · exact hg q (List.mem_cons_of_mem p1 (List.mem_cons_of_mem p2 hq'))
        have htag' : ∀ q ∈ (⟨p1.pre ++ (pyStr (v p1.tok) ++ p2.pre),
            p2.dMode, p2.run, p2.eMode⟩ : TokPiece) :: rest2,
            tagOfP ctx q = .ok (v q.tok) := by
          intro q hq
          rcases List.mem_cons.mp hq with rfl | hq'
          · rw [hMtok]
            exact htag p2 (by simp)
          · exact htag q (by simp [hq'])
        have hrv' : ∀ q ∈ (⟨p1.pre ++ (pyStr (v p1.tok) ++ p2.pre),
            p2.dMode, p2.run, p2.eMode⟩ : TokPiece) :: rest2,
            noLBrace (pyStr (v q.tok)) = true ∧
              ∃ c ∈ pyStr (v q.tok), pyIsSpace c = false := by
          intro q hq
          rcases List.mem_cons.mp hq with rfl | hq'
          · rw [hMtok]
            exact hrv p2 (by simp)
          · exact hrv q (by simp [hq'])
        have hnd2 : (List.map TokPiece.tok
            ((⟨p1.pre ++ (pyStr (v p1.tok) ++ p2.pre),
              p2.dMode, p2.run, p2.eMode⟩ : TokPiece) :: rest2)).Nodup := by
          rw [List.map_cons, hMtok]
          exact hnd'.2
        have hmix' : ∀ q, (⟨p1.pre ++ (pyStr (v p1.tok) ++ p2.pre),
            p2.dMode, p2.run, p2.eMode⟩ : TokPiece) :: rest2 = [q] →
            pyStrip (interleave ((⟨p1.pre ++ (pyStr (v p1.tok) ++ p2.pre),
              p2.dMode, p2.run, p2.eMode⟩ : TokPiece) :: rest2) tail) ≠
              q.tok := by
          intro q hq
          cases rest2 with
          | cons _ _ => exact absurd hq (by simp)
          | nil =>
            have hqM : q = ⟨p1.pre ++ (pyStr (v p1.tok) ++ p2.pre),
                p2.dMode, p2.run, p2.eMode⟩ := by
              injection hq with h1 _
              exact h1.symm
            subst hqM
            show pyStrip ((p1.pre ++ (pyStr (v p1.tok) ++ p2.pre)) ++
              (TokPiece.tok ⟨p1.pre ++ (pyStr (v p1.tok) ++ p2.pre),
                p2.dMode, p2.run, p2.eMode⟩ ++ tail)) ≠ _
            apply pyStrip_ne_tok
            · obtain ⟨c, hcmem, hcw⟩ := hrv1.2
              refine ⟨c, ?_, hcw⟩
              simp [hcmem]
            · exact ⟨rbrace, _, tok_reverse _, by decide⟩
        have hlen' : ((⟨p1.pre ++ (pyStr (v p1.tok) ++ p2.pre),
            p2.dMode, p2.run, p2.eMode⟩ : TokPiece) :: rest2).length = n := by
          simp only [List.length_cons] at hlen ⊢
          omega
        rw [ih _ tail g1 hlen' hgood' htail htag' hrv' hnd2
          (List.cons_ne_nil _ _) hmix' (by omega), except_bind_ok]
        have hfin : noLBrace (replacedConcat v
            ((⟨p1.pre ++ (pyStr (v p1.tok) ++ p2.pre),
              p2.dMode, p2.run, p2.eMode⟩ : TokPiece) :: rest2) tail) = true :=
          replacedConcat_noLB v _ tail hgood' (fun q hq => (hrv' q hq).1) htail
        rw [resolve_loop_stable ctx _ hfin (p2 :: rest2) g1
          (fun q hq => ⟨hg q (List.mem_cons_of_mem p1 hq), v q.tok,
            htag q (List.mem_cons_of_mem p1 hq)⟩)
          (by
            simp only [List.length_cons] at hlen ⊢
            omega)]
        have hfinal : replacedConcat v
            ((⟨p1.pre ++ (pyStr (v p1.tok) ++ p2.pre),
              p2.dMode, p2.run, p2.eMode⟩ : TokPiece) :: rest2) tail =
            replacedConcat v (p1 :: p2 :: rest2) tail := by
          show (p1.pre ++ (pyStr (v p1.tok) ++ p2.pre)) ++
            (pyStr (v (TokPiece.tok ⟨p1.pre ++ (pyStr (v p1.tok) ++ p2.pre),
              p2.dMode, p2.run, p2.eMode⟩)) ++ replacedConcat v rest2 tail) = _
          rw [hMtok]
          show _ = p1.pre ++ (pyStr (v p1.tok) ++
            (p2.pre ++ (pyStr (v p2.tok) ++ replacedConcat v rest2 tail)))
          simp [List.append_assoc]
        rw [hfinal]

/-- A string consisting (after `strip()`) of exactly one well-formed
token resolves to the typed value of that token's tag. -/
theorem resolve_lone (ctx : ResolverCtx) (value : List Char) (p : TokPiece)
    (fuel : Nat) (hft : findTokens value = [p.tok])
    (hstrip : pyStrip value = p.tok) (hp : GoodPiece p) (hf : 4 ≤ fuel) :
    resolve fuel ctx (.pstr value) = tagOfP ctx p := by
  obtain ⟨g, rfl⟩ : ∃ g, fuel = g + 1 := ⟨fuel - 1, by omega⟩
  rw [resolve_pstr_eq, hft]
  dsimp only
  rw [if_pos ⟨rfl, hstrip⟩]
  exact resolve_tag ctx p g hp (by omega)

/-- A `dictV` is neither a list nor a string. -/
theorem isListOrStr_dictV (m : List (List Char × PyValue)) :
    isListOrStr (PyValue.dictV m) = false := by
  cases m <;> rfl

/-- A `dictV` is a dict. -/
theorem isDict_dictV (m : List (List Char × PyValue)) :
    isDict (PyValue.dictV m) = true := by
  cases m <;> rfl

/-- Converting a `dictV` back to its entry list. -/
theorem dictElems_dictV (m : List (List Char × PyValue)) :
    dictElems (PyValue.dictV m) = m := by
  induction m with
  | nil => rfl
  | cons kv rest ih =>
    show (kv.1, kv.2) :: dictElems (PyValue.dictV rest) = kv :: rest
    rw [ih]

/-- One-segment dictionary lookup through `get_key_path`: a dotted-path
key that is a single plain segment found in the dict yields the stored
value unchanged. -/
theorem getKeyPath_dict_hit (m : List (List Char × PyValue))
    (name : List Char) (w : PyValue) (hdot : ∀ c ∈ name, c ≠ '.')
    (hguard : (("__".data.isPrefixOf name) ||
      (name.reverse.take 2 = "__".data.reverse) ||
      ("_".data.isPrefixOf name) ||
      (name.reverse.take 1 = "_".data)) = false)
    (hget : assocGet m name = some w) :
    getKeyPath (.dictV m) name = .ok w := by
  rw [getKeyPath_single _ name hdot]
  unfold keyPathStep
  rw [if_neg (by simp only [hguard]; exact fun h => by cases h)]
  rw [if_neg (by rw [isListOrStr_dictV]; exact fun h => by simp at h)]
  rw [if_neg (by rw [isListOrStr_dictV]; exact fun h => by simp at h)]
  rw [if_pos (isDict_dictV m)]
  rw [dictElems_dictV, hget]

/-- The C4 counterexample: resolving `"{# a #} {# b #}"` with variables
`a = ""` and `b = 5` raises `AttributeError` instead of returning the
string with both tokens replaced.  After the first replacement the
working string `" {# b #}"` strips to the lone token `{# b #}`, so the
recursive re-parse returns the *typed* integer 5, and the next loop
iteration calls `.replace` on that int.  The conjuncts record that the
input really is the claim's mixed case (two tokens, not a lone token)
and that an `AttributeError` is not the claimed string result. -/
theorem c4_counterexample_mixed_attribute_error :
    parseContextString ctxC4X 30
        (mkVarTok "a".data ++ (' ' :: mkVarTok "b".data)) =
      .error (.attributeError "replace".data) ∧
    findTokens (mkVarTok "a".data ++ (' ' :: mkVarTok "b".data)) =
      [mkVarTok "a".data, mkVarTok "b".data] ∧
    pyStrip (mkVarTok "a".data ++ (' ' :: mkVarTok "b".data)) ≠
      mkVarTok "a".data ∧
    (Except.error (PyExc.attributeError "replace".data) :
        Except PyExc PyValue) ≠ .ok (.strV " 5".data) :=
  ⟨rfl, rfl, by decide, fun h => Except.noConfusion h⟩

/-- **C4.**  The claim: a string parameter that consists (after trimming
whitespace) of exactly one reference token resolves to the typed value at
the referenced path, and a string mixing tokens with literal text
resolves to a string with each token replaced by the `str()` of its
value.  The first half is confirmed as stated (first conjunct, for a
`{# name #}` job-variable token: the stored value comes back typed and
unchanged).  The second half does not hold unconditionally — see
`c4_counterexample_mixed_attribute_error` — and is amended (second
conjunct) with the side conditions under which the source's
replace-and-re-parse loop really produces the claimed string: the
literal parts contain no `{`, the tokens are well formed and pairwise
distinct, every tag resolves, and each resolved value's `str()` form is
brace-free and contains a non-whitespace character (so no intermediate
re-parse collapses to a lone token and resolves to a non-string). -/
theorem c4_amended_token_resolution :
    (∀ (ctx : ResolverCtx) (value name : List Char) (w : PyValue)
        (fuel : Nat),
      findTokens value = [TokPiece.tok ⟨[], '#', name, '#'⟩] →
      pyStrip value = TokPiece.tok ⟨[], '#', name, '#'⟩ →
      GoodPiece ⟨[], '#', name, '#'⟩ →
      (∀ c ∈ name, c ≠ '.') →
      (("__".data.isPrefixOf name) ||
        (name.reverse.take 2 = "__".data.reverse) ||
        ("_".data.isPrefixOf name) ||
        (name.reverse.take 1 = "_".data)) = false →
      assocGet ctx.jvariables name = some w →
      4 ≤ fuel →
      parseContextString ctx fuel value = .ok w) ∧
    (∀ (ctx : ResolverCtx) (v : List Char → PyValue)
        (pieces : List TokPiece) (tail : List Char) (fuel : Nat),
      (∀ p ∈ pieces, GoodPiece p) →
      noLBrace tail = true →
      (∀ p ∈ pieces, tagOfP ctx p = .ok (v p.tok)) →
      (∀ p ∈ pieces, noLBrace (pyStr (v p.tok)) = true ∧
        ∃ c ∈ pyStr (v p.tok), pyIsSpace c = false) →
      (pieces.map TokPiece.tok).Nodup →
      pieces ≠ [] →
      (∀ p, pieces = [p] → pyStrip (interleave pieces tail) ≠ p.tok) →
      3 * pieces.length + 5 ≤ fuel →
      parseContextString ctx fuel (interleave pieces tail) =
        .ok (.strV (replacedConcat v pieces tail))) := by
  constructor
  · intro ctx value name w fuel hft hstrip hgp hdot hguard hget hf
    show resolve fuel ctx (.pstr value) = .ok w
    rw [resolve_lone ctx value _ fuel hft hstrip hgp hf]
    have htg : tagOfP ctx ⟨[], '#', name, '#'⟩ =
        getKeyPath (.dictV ctx.jvariables) name := by
      unfold tagOfP
      rw [if_neg (fun h => (by decide : ('#' : Char) ≠ ':') h.1),
        if_pos ⟨rfl, rfl⟩]
    rw [htg, getKeyPath_dict_hit ctx.jvariables name w hdot hguard hget]
  · intro ctx v pieces tail fuel hg htail htag hrv hnd hne hmix hf
    exact resolve_interleave ctx v pieces.length pieces tail fuel rfl hg
      htail htag hrv hnd hne hmix hf

/-- Witness for C4's amended theorem at the spec's own round-trip
examples: with `count = 5`, `"{# count #}"` resolves to the integer 5
and `"x = {# count #}"` resolves to the string `"x = 5"`. -/
theorem c4_amended_token_resolution_witness :
    parseContextString ctxC4W 20 (mkVarTok "count".data) = .ok (.intV 5) ∧
    parseContextString ctxC4W 20 ("x = ".data ++ mkVarTok "count".data) =
      .ok (.strV "x = 5".data) := by
  constructor
  · exact c4_amended_token_resolution.1 ctxC4W (mkVarTok "count".data)
      "count".data (.intV 5) 20 rfl rfl
      ⟨rfl, rfl, by decide, by decide, rfl⟩
      (by decide) (by decide) rfl (by decide)
  · exact c4_amended_token_resolution.2 ctxC4W (fun _ => .intV 5)
      [⟨"x = ".data, '#', "count".data, '#'⟩] [] 20
      (fun p hp => by
        rw [List.mem_singleton] at hp
        subst hp
        exact ⟨rfl, rfl, by decide, by decide, rfl⟩)
      rfl
      (fun p hp => by
        rw [List.mem_singleton] at hp
        subst hp
        rfl)
      (fun p hp => by
        rw [List.mem_singleton] at hp
        subst hp
        exact ⟨rfl, '5', by decide, by decide⟩)
      (by decide) (List.cons_ne_nil _ _)
      (fun p hp => by
        injection hp with h1 h2
        subst h1
        decide)
      (by decide)

end Pyconduit
